import Mathlib

/-!
Strawpoll-Bot: dispatcher, worker pool, collector and shutdown protocol

A shallow embedding of `main.go`.  The program is a set of goroutines that
communicate over five unbuffered channels.  Each goroutine is modelled by a
program counter that names the source line it is at; the whole program is a
state (`State`) and a computable step function (`step`) that takes the
scheduler's choice (`Action`) and returns the next state, or `none` when the
chosen action is not enabled.  A send on an unbuffered channel completes only
together with the matching receive, so each channel operation is one
rendezvous action that moves both goroutines.

What is outside the source is a parameter: `url.Parse` is `Config.urlParse`,
the result of `client.PostForm`, `json.Marshal` and `ioutil.WriteFile` is
chosen by the scheduler (`Action.postDone`, `Action.marshal`, `Action.write`).
Every observable operation appends an `Event` to the trace.

A call in flight can always return, with either result: the model takes every
network call to return (`SecondTimeout` is what bounds it in the program), so
what is proved for every schedule is proved under that assumption.
-/

namespace StrawpollBot

/-! ## Data model -/

/-- The parsed endpoint `*url.URL`; `Host` is the only field the program reads. -/
structure URL where
  Host : String
deriving DecidableEq, Repr

/-- The package-level variables set by `ReadFlags` and `ReadProxyList`, and the
library function `url.Parse` the dispatch loop calls. -/
structure Config where
  ProxyList : List String
  Poll : String
  Options : String
  Threads : Int
  Entrance : Int
  CleanProxies : Bool
  SecondTimeout : Int
  urlParse : String → Option URL

/-- Where the `main` goroutine is. -/
inductive Main where
  /-- line 158: `if CleanProxies { go CleanThread() }` -/
  | startClean
  /-- line 164: head of `for i := 0; i < Threads; i++` (spawning) -/
  | spawnLoop (i : Int)
  /-- line 174: evaluating `ProxyList[Entrance:]` -/
  | slice
  /-- line 174: head of the range loop, at index `i`, `rest` still to visit -/
  | rangeLoop (i : Int) (rest : List String)
  /-- line 184: blocked in `ProxyChannel <- proxyURL` -/
  | sending (i : Int) (u : URL) (rest : List String)
  /-- line 198: head of `for i := 0; i < Threads; i++` (killing) -/
  | killLoop (i : Int)
  /-- line 200: blocked in `QuitChannel <- true` -/
  | killing (i : Int)
  /-- line 204: `if CleanProxies` -/
  | quitClean
  /-- line 206: blocked in `QuitCleanChannel <- true` -/
  | sendingQuitClean
  /-- line 207: blocked in `<-CompletedChannel` -/
  | waitCompleted
  /-- `main` returned: the process has exited -/
  | done
  /-- the slice expression panicked: the process has crashed -/
  | panicked
deriving DecidableEq, Repr

/-- Where a `PostThread` goroutine is. -/
inductive PostThread where
  /-- line 111: blocked in `select` on `QuitChannel` and `ProxyChannel` -/
  | select
  /-- line 131: `client.PostForm` in flight through proxy `u` -/
  | posting (u : URL)
  /-- line 141: blocked in `CleanChannel <- proxy` -/
  | forwarding (u : URL)
  /-- line 114: returned -/
  | returned
deriving DecidableEq, Repr

/-- Where the `CleanThread` goroutine is. -/
inductive CleanThread where
  /-- line 79: blocked in `select`, holding the slice `proxies` -/
  | select (proxies : List String)
  /-- line 82: about to call `json.Marshal(proxies)` -/
  | marshal (proxies : List String)
  /-- line 90: about to call `ioutil.WriteFile` -/
  | write (proxies : List String)
  /-- lines 86 and 96: blocked in `CompletedChannel <- true` -/
  | completing
  /-- lines 87 and 97: returned -/
  | returned
deriving DecidableEq, Repr

/-- The observable operations of a run, in the order they happen. -/
inductive Event where
  | logCreateClean
  | spawnClean
  | logCreateThread (n : Int)
  | spawnPost
  | logAllCreated
  | logStarting
  | slicePanic
  | parseCall (i : Int) (proxy : String)
  | logParseError (proxy : String)
  | sendProxy (u : URL)
  | recvProxy (w : Nat) (u : URL)
  | logSendingVote (n : Int)
  | logAllSent
  | logKilling
  | logKillThread (n : Int)
  | sendQuit
  | recvQuit (w : Nat)
  | logKillClean
  | sendQuitClean
  | recvQuitClean
  | recvCompleted
  | postOk (w : Nat) (u : URL)
  | postErr (w : Nat) (u : URL)
  | logPostError (w : Nat)
  | sendClean (w : Nat) (u : URL)
  | marshal (hosts : List String) (ok : Bool)
  | logMarshalError
  | writeFile (hosts : List String) (ok : Bool)
  | logWriteError
  | sendCompleted
deriving DecidableEq, Repr

/-- The whole program: `main`, the spawned `PostThread`s in spawn order, the
`CleanThread` when it was started, and the trace so far. -/
structure State where
  main : Main
  posts : List PostThread
  clean : Option CleanThread
  trace : List Event
deriving DecidableEq, Repr

/-- The scheduler's choice of what happens next. -/
inductive Action where
  /-- `main` runs up to its next channel operation -/
  | main
  /-- rendezvous on `ProxyChannel`: `main` sends, worker `w` receives -/
  | dispatch (w : Nat)
  /-- the `PostForm` call of worker `w` returns, without (`ok`) or with an error -/
  | postDone (w : Nat) (ok : Bool)
  /-- rendezvous on `CleanChannel`: worker `w` sends, `CleanThread` receives -/
  | forward (w : Nat)
  /-- rendezvous on `QuitChannel`: `main` sends, worker `w` receives -/
  | kill (w : Nat)
  /-- rendezvous on `QuitCleanChannel`: `main` sends, `CleanThread` receives -/
  | quitClean
  /-- `json.Marshal` returns, without (`ok`) or with an error -/
  | marshal (ok : Bool)
  /-- `ioutil.WriteFile` returns, without (`ok`) or with an error -/
  | write (ok : Bool)
  /-- rendezvous on `CompletedChannel`: `CleanThread` sends, `main` receives -/
  | completed
deriving DecidableEq, Repr

/-! ## Operations -/

/-- The slice expression `l[e:]` of Go: defined when `0 ≤ e ≤ len(l)`, a
run-time panic (`none`) otherwise. -/
def sliceFrom (l : List String) (e : Int) : Option (List String) :=
  if 0 ≤ e ∧ e ≤ (l.length : Int) then some (l.drop e.toNat) else none

/-- Whether the process is over: `main` returned or panicked. -/
def Main.exited : Main → Bool
  | .done => true
  | .panicked => true
  | _ => false

/-- The initial state: `main` has read the flags and the proxy list. -/
def init : State :=
  { main := .startClean, posts := [], clean := none, trace := [] }

/-- The `main` goroutine runs from where it is to its next channel operation
(lines 157 to 208). -/
def stepMain (cfg : Config) (s : State) : Option State :=
  match s.main with
  | .startClean =>
    if cfg.CleanProxies then
      some { s with main := .spawnLoop 0, clean := some (.select []),
                    trace := s.trace ++ [.logCreateClean, .spawnClean] }
    else
      some { s with main := .spawnLoop 0 }
  | .spawnLoop i =>
    if i < cfg.Threads then
      some { s with main := .spawnLoop (i + 1), posts := s.posts ++ [.select],
                    trace := s.trace ++ [.logCreateThread (i + 1), .spawnPost] }
    else
      some { s with main := .slice, trace := s.trace ++ [.logAllCreated, .logStarting] }
  | .slice =>
    match sliceFrom cfg.ProxyList cfg.Entrance with
    | some items => some { s with main := .rangeLoop 0 items }
    | none => some { s with main := .panicked, trace := s.trace ++ [.slicePanic] }
  | .rangeLoop _ [] =>
    some { s with main := .killLoop 0, trace := s.trace ++ [.logAllSent, .logKilling] }
  | .rangeLoop i (proxy :: rest) =>
    match cfg.urlParse ("http://" ++ proxy) with
    | none =>
      some { s with main := .rangeLoop (i + 1) rest,
                    trace := s.trace ++ [.parseCall i proxy, .logParseError proxy] }
    | some u =>
      some { s with main := .sending i u rest, trace := s.trace ++ [.parseCall i proxy] }
  | .killLoop i =>
    if i < cfg.Threads then
      some { s with main := .killing i, trace := s.trace ++ [.logKillThread (i + 1)] }
    else
      some { s with main := .quitClean }
  | .quitClean =>
    if cfg.CleanProxies then
      some { s with main := .sendingQuitClean, trace := s.trace ++ [.logKillClean] }
    else
      some { s with main := .done }
  | _ => none

/-- Line 184 meets line 116: worker `w`, waiting in its `select`, takes the
endpoint `main` is sending; `main` logs the vote (line 190) and loops. -/
def stepDispatch (cfg : Config) (s : State) (w : Nat) : Option State :=
  match s.main, s.posts[w]? with
  | .sending i u rest, some .select =>
    some { s with main := .rangeLoop (i + 1) rest, posts := s.posts.set w (.posting u),
                  trace := s.trace ++
                    [.sendProxy u, .recvProxy w u, .logSendingVote (i + 1 + cfg.Entrance)] }
  | _, _ => none

/-- Lines 131 to 143: the `PostForm` call of worker `w` returns.  With an error
the worker logs and continues; without one it goes on to line 141 when
`CleanProxies` is set, and back to its `select` otherwise. -/
def stepPostDone (cfg : Config) (s : State) (w : Nat) (ok : Bool) : Option State :=
  if s.main.exited then none else
  match s.posts[w]? with
  | some (.posting u) =>
    if ok then
      if cfg.CleanProxies then
        some { s with posts := s.posts.set w (.forwarding u),
                      trace := s.trace ++ [.postOk w u] }
      else
        some { s with posts := s.posts.set w .select, trace := s.trace ++ [.postOk w u] }
    else
      some { s with posts := s.posts.set w .select,
                    trace := s.trace ++ [.postErr w u, .logPostError w] }
  | _ => none

/-- Line 141 meets line 99: `CleanThread`, waiting in its `select`, takes the
endpoint worker `w` is sending and appends its `Host`. -/
def stepForward (s : State) (w : Nat) : Option State :=
  if s.main.exited then none else
  match s.posts[w]?, s.clean with
  | some (.forwarding u), some (.select proxies) =>
    some { s with posts := s.posts.set w .select,
                  clean := some (.select (proxies ++ [u.Host])),
                  trace := s.trace ++ [.sendClean w u] }
  | _, _ => none

/-- Line 200 meets line 112: worker `w`, waiting in its `select`, takes the
quit token and returns. -/
def stepKill (s : State) (w : Nat) : Option State :=
  match s.main, s.posts[w]? with
  | .killing i, some .select =>
    some { s with main := .killLoop (i + 1), posts := s.posts.set w .returned,
                  trace := s.trace ++ [.sendQuit, .recvQuit w] }
  | _, _ => none

/-- Line 206 meets line 80: `CleanThread`, waiting in its `select`, takes the
quit token. -/
def stepQuitClean (s : State) : Option State :=
  match s.main, s.clean with
  | .sendingQuitClean, some (.select proxies) =>
    some { s with main := .waitCompleted, clean := some (.marshal proxies),
                  trace := s.trace ++ [.sendQuitClean, .recvQuitClean] }
  | _, _ => none

/-- Lines 82 to 88: `json.Marshal` returns; on an error `CleanThread` logs and
goes to send its completion token. -/
def stepMarshal (s : State) (ok : Bool) : Option State :=
  if s.main.exited then none else
  match s.clean with
  | some (.marshal proxies) =>
    if ok then
      some { s with clean := some (.write proxies),
                    trace := s.trace ++ [.marshal proxies true] }
    else
      some { s with clean := some .completing,
                    trace := s.trace ++ [.marshal proxies false, .logMarshalError] }
  | _ => none

/-- Lines 90 to 94: `ioutil.WriteFile` returns; an error is logged; either way
`CleanThread` goes to send its completion token. -/
def stepWrite (s : State) (ok : Bool) : Option State :=
  if s.main.exited then none else
  match s.clean with
  | some (.write proxies) =>
    if ok then
      some { s with clean := some .completing,
                    trace := s.trace ++ [.writeFile proxies true] }
    else
      some { s with clean := some .completing,
                    trace := s.trace ++ [.writeFile proxies false, .logWriteError] }
  | _ => none

/-- Lines 86 and 96 meet line 207: `main` takes the completion token and
returns; `CleanThread` returns. -/
def stepCompleted (s : State) : Option State :=
  match s.main, s.clean with
  | .waitCompleted, some .completing =>
    some { s with main := .done, clean := some .returned,
                  trace := s.trace ++ [.sendCompleted, .recvCompleted] }
  | _, _ => none

/-- One step of the program under the scheduler's choice `a`; `none` when `a`
is not enabled in `s`. -/
def step (cfg : Config) (s : State) : Action → Option State
  | .main => stepMain cfg s
  | .dispatch w => stepDispatch cfg s w
  | .postDone w ok => stepPostDone cfg s w ok
  | .forward w => stepForward s w
  | .kill w => stepKill s w
  | .quitClean => stepQuitClean s
  | .marshal ok => stepMarshal s ok
  | .write ok => stepWrite s ok
  | .completed => stepCompleted s

/-- Run a schedule from `s`; `none` when some action of it is not enabled. -/
def run (cfg : Config) (s : State) : List Action → Option State
  | [] => some s
  | a :: as => (step cfg s a).bind (fun s' => run cfg s' as)

/-- The states some schedule reaches from the initial state. -/
def Reach (cfg : Config) (s : State) : Prop :=
  ∃ as : List Action, run cfg init as = some s

/-- On every schedule from `s` the program comes to a state satisfying `P`:
either `P` holds now, or some action is enabled and every enabled action leads
to a state from which `P` is inevitable. -/
inductive Inev (cfg : Config) (P : State → Prop) : State → Prop where
  | now {s : State} : P s → Inev cfg P s
  | later {s : State} : (∃ a s', step cfg s a = some s') →
      (∀ a s', step cfg s a = some s' → Inev cfg P s') → Inev cfg P s

/-! ## Readings of the trace -/

/-- The endpoints `main` has sent on `ProxyChannel`, in order. -/
def sentURLs (tr : List Event) : List URL :=
  tr.filterMap (fun e => match e with | .sendProxy u => some u | _ => none)

/-- The items whose parse error was logged, in order. -/
def parseErrors (tr : List Event) : List String :=
  tr.filterMap (fun e => match e with | .logParseError p => some p | _ => none)

/-- The calls of `url.Parse`: loop index and item, in order. -/
def parseCalls (tr : List Event) : List (Int × String) :=
  tr.filterMap (fun e => match e with | .parseCall i p => some (i, p) | _ => none)

/-- The endpoints whose `PostForm` call returned without an error, in order. -/
def okURLs (tr : List Event) : List URL :=
  tr.filterMap (fun e => match e with | .postOk _ u => some u | _ => none)

/-- The endpoints sent on `CleanChannel`, in order. -/
def cleanURLs (tr : List Event) : List URL :=
  tr.filterMap (fun e => match e with | .sendClean _ u => some u | _ => none)

/-- The lists `CleanThread` handed to `json.Marshal` or `ioutil.WriteFile`. -/
def savedLists (tr : List Event) : List (List String) :=
  tr.filterMap (fun e => match e with
    | .marshal hosts _ => some hosts
    | .writeFile hosts _ => some hosts
    | _ => none)

/-- Whether the event belongs to the collection pipeline: starting
`CleanThread`, a send on `CleanChannel`, `QuitCleanChannel` or
`CompletedChannel`, or the serialise and write step. -/
def Event.isClean : Event → Bool
  | .logCreateClean => true
  | .spawnClean => true
  | .logKillClean => true
  | .sendQuitClean => true
  | .recvQuitClean => true
  | .recvCompleted => true
  | .sendClean _ _ => true
  | .marshal _ _ => true
  | .logMarshalError => true
  | .writeFile _ _ => true
  | .logWriteError => true
  | .sendCompleted => true
  | _ => false

/-- Whether `main` has left the dispatch loop (states Draining and Done). -/
def Main.pastDispatch : Main → Bool
  | .killLoop _ => true
  | .killing _ => true
  | .quitClean => true
  | .sendingQuitClean => true
  | .waitCompleted => true
  | .done => true
  | _ => false

/-- Whether `main` has left the spawn loop. -/
def Main.pastSpawn : Main → Bool
  | .startClean => false
  | .spawnLoop _ => false
  | _ => true

/-- Whether `main` has left the loop that sends the quit tokens. -/
def Main.pastKill : Main → Bool
  | .quitClean => true
  | .sendingQuitClean => true
  | .waitCompleted => true
  | .done => true
  | _ => false

/-- A stand-in for `url.Parse` used at concrete inputs: the text after
`http://` is the host, and a host that is empty or holds a space is an error. -/
def sampleParse (s : String) : Option URL :=
  match s.data with
  | 'h' :: 't' :: 't' :: 'p' :: ':' :: '/' :: '/' :: host =>
    if host.isEmpty || host.contains ' ' then none else some ⟨String.mk host⟩
  | _ => none

/-- A configuration for concrete runs. -/
def sampleConfig (proxies : List String) (threads entrance : Int) (cleanProxies : Bool) :
    Config :=
  { ProxyList := proxies, Poll := "17338883", Options := "139529712", Threads := threads,
    Entrance := entrance, CleanProxies := cleanProxies, SecondTimeout := 30,
    urlParse := sampleParse }

/-- The transitions of `step`, one constructor per branch of the source. -/
inductive Trans (cfg : Config) : State → State → Prop where
  | startCleanOn {ps c tr} : cfg.CleanProxies = true →
      Trans cfg ⟨.startClean, ps, c, tr⟩
        ⟨.spawnLoop 0, ps, some (.select []), tr ++ [.logCreateClean, .spawnClean]⟩
  | startCleanOff {ps c tr} : cfg.CleanProxies = false →
      Trans cfg ⟨.startClean, ps, c, tr⟩ ⟨.spawnLoop 0, ps, c, tr⟩
  | spawn {i ps c tr} : i < cfg.Threads →
      Trans cfg ⟨.spawnLoop i, ps, c, tr⟩
        ⟨.spawnLoop (i + 1), ps ++ [.select], c, tr ++ [.logCreateThread (i + 1), .spawnPost]⟩
  | spawnEnd {i ps c tr} : ¬ i < cfg.Threads →
      Trans cfg ⟨.spawnLoop i, ps, c, tr⟩ ⟨.slice, ps, c, tr ++ [.logAllCreated, .logStarting]⟩
  | sliceOk {items ps c tr} : sliceFrom cfg.ProxyList cfg.Entrance = some items →
      Trans cfg ⟨.slice, ps, c, tr⟩ ⟨.rangeLoop 0 items, ps, c, tr⟩
  | slicePanic {ps c tr} : sliceFrom cfg.ProxyList cfg.Entrance = none →
      Trans cfg ⟨.slice, ps, c, tr⟩ ⟨.panicked, ps, c, tr ++ [.slicePanic]⟩
  | rangeEnd {i ps c tr} :
      Trans cfg ⟨.rangeLoop i [], ps, c, tr⟩ ⟨.killLoop 0, ps, c, tr ++ [.logAllSent, .logKilling]⟩
  | parseErr {i p rest ps c tr} : cfg.urlParse ("http://" ++ p) = none →
      Trans cfg ⟨.rangeLoop i (p :: rest), ps, c, tr⟩
        ⟨.rangeLoop (i + 1) rest, ps, c, tr ++ [.parseCall i p, .logParseError p]⟩
  | parseOk {i p rest u ps c tr} : cfg.urlParse ("http://" ++ p) = some u →
      Trans cfg ⟨.rangeLoop i (p :: rest), ps, c, tr⟩
        ⟨.sending i u rest, ps, c, tr ++ [.parseCall i p]⟩
  | killNext {i ps c tr} : i < cfg.Threads →
      Trans cfg ⟨.killLoop i, ps, c, tr⟩ ⟨.killing i, ps, c, tr ++ [.logKillThread (i + 1)]⟩
  | killEnd {i ps c tr} : ¬ i < cfg.Threads →
      Trans cfg ⟨.killLoop i, ps, c, tr⟩ ⟨.quitClean, ps, c, tr⟩
  | quitCleanOn {ps c tr} : cfg.CleanProxies = true →
      Trans cfg ⟨.quitClean, ps, c, tr⟩ ⟨.sendingQuitClean, ps, c, tr ++ [.logKillClean]⟩
  | quitCleanOff {ps c tr} : cfg.CleanProxies = false →
      Trans cfg ⟨.quitClean, ps, c, tr⟩ ⟨.done, ps, c, tr⟩
  | dispatch {i u rest ps c tr} (w : Nat) : ps[w]? = some .select →
      Trans cfg ⟨.sending i u rest, ps, c, tr⟩
        ⟨.rangeLoop (i + 1) rest, ps.set w (.posting u), c,
          tr ++ [.sendProxy u, .recvProxy w u, .logSendingVote (i + 1 + cfg.Entrance)]⟩
  | postOkOn {m ps c tr u} (w : Nat) : m.exited = false → ps[w]? = some (.posting u) →
      cfg.CleanProxies = true →
      Trans cfg ⟨m, ps, c, tr⟩ ⟨m, ps.set w (.forwarding u), c, tr ++ [.postOk w u]⟩
  | postOkOff {m ps c tr u} (w : Nat) : m.exited = false → ps[w]? = some (.posting u) →
      cfg.CleanProxies = false →
      Trans cfg ⟨m, ps, c, tr⟩ ⟨m, ps.set w .select, c, tr ++ [.postOk w u]⟩
  | postFail {m ps c tr u} (w : Nat) : m.exited = false → ps[w]? = some (.posting u) →
      Trans cfg ⟨m, ps, c, tr⟩
        ⟨m, ps.set w .select, c, tr ++ [.postErr w u, .logPostError w]⟩
  | forward {m ps l tr u} (w : Nat) : m.exited = false → ps[w]? = some (.forwarding u) →
      Trans cfg ⟨m, ps, some (.select l), tr⟩
        ⟨m, ps.set w .select, some (.select (l ++ [u.Host])), tr ++ [.sendClean w u]⟩
  | kill {i ps c tr} (w : Nat) : ps[w]? = some .select →
      Trans cfg ⟨.killing i, ps, c, tr⟩
        ⟨.killLoop (i + 1), ps.set w .returned, c, tr ++ [.sendQuit, .recvQuit w]⟩
  | quitClean {ps l tr} :
      Trans cfg ⟨.sendingQuitClean, ps, some (.select l), tr⟩
        ⟨.waitCompleted, ps, some (.marshal l), tr ++ [.sendQuitClean, .recvQuitClean]⟩
  | marshalOk {m ps l tr} : m.exited = false →
      Trans cfg ⟨m, ps, some (.marshal l), tr⟩
        ⟨m, ps, some (.write l), tr ++ [.marshal l true]⟩
  | marshalFail {m ps l tr} : m.exited = false →
      Trans cfg ⟨m, ps, some (.marshal l), tr⟩
        ⟨m, ps, some .completing, tr ++ [.marshal l false, .logMarshalError]⟩
  | writeOk {m ps l tr} : m.exited = false →
      Trans cfg ⟨m, ps, some (.write l), tr⟩
        ⟨m, ps, some .completing, tr ++ [.writeFile l true]⟩
  | writeFail {m ps l tr} : m.exited = false →
      Trans cfg ⟨m, ps, some (.write l), tr⟩
        ⟨m, ps, some .completing, tr ++ [.writeFile l false, .logWriteError]⟩
  | completed {ps tr} :
      Trans cfg ⟨.waitCompleted, ps, some .completing, tr⟩
        ⟨.done, ps, some .returned, tr ++ [.sendCompleted, .recvCompleted]⟩

/-! ## Invariants and the termination measure -/

/-- Whether the worker has returned. -/
def PostThread.isReturned : PostThread → Bool
  | .returned => true
  | _ => false

/-- Whether the worker is blocked sending on `CleanChannel`. -/
def PostThread.isForwarding : PostThread → Bool
  | .forwarding _ => true
  | _ => false

/-- Where `CleanThread` is, given where `main` is. -/
def cleanShape (cfg : Config) (m : Main) (c : Option CleanThread) : Prop :=
  match m with
  | .startClean => c = none
  | .sendingQuitClean => cfg.CleanProxies = true ∧ ∃ l, c = some (.select l)
  | .waitCompleted => cfg.CleanProxies = true ∧
      ∃ l, c = some (.marshal l) ∨ c = some (.write l) ∨ c = some .completing
  | .done => if cfg.CleanProxies = true then c = some .returned else c = none
  | _ => if cfg.CleanProxies = true then ∃ l, c = some (.select l) else c = none

/-- How many workers exist and how many have returned, given where `main` is. -/
def postsShape (cfg : Config) (m : Main) (ps : List PostThread) : Prop :=
  match m with
  | .startClean => ps = []
  | .spawnLoop i => (ps.length : Int) = i ∧ i ≤ max cfg.Threads 0 ∧
      ps.countP PostThread.isReturned = 0
  | .killLoop i => (ps.length : Int) = max cfg.Threads 0 ∧
      (ps.countP PostThread.isReturned : Int) = i
  | .killing i => (ps.length : Int) = max cfg.Threads 0 ∧
      (ps.countP PostThread.isReturned : Int) = i ∧ i < cfg.Threads
  | .quitClean => (ps.length : Int) = max cfg.Threads 0 ∧
      ps.countP PostThread.isReturned = ps.length
  | .sendingQuitClean => (ps.length : Int) = max cfg.Threads 0 ∧
      ps.countP PostThread.isReturned = ps.length
  | .waitCompleted => (ps.length : Int) = max cfg.Threads 0 ∧
      ps.countP PostThread.isReturned = ps.length
  | .done => (ps.length : Int) = max cfg.Threads 0 ∧
      ps.countP PostThread.isReturned = ps.length
  | _ => (ps.length : Int) = max cfg.Threads 0 ∧ ps.countP PostThread.isReturned = 0

/-- The shape every reachable state has. -/
def Inv (cfg : Config) (s : State) : Prop :=
  cleanShape cfg s.main s.clean ∧ postsShape cfg s.main s.posts ∧
    (cfg.CleanProxies = false → s.posts.countP PostThread.isForwarding = 0)

/-- Steps a worker can still take without receiving anything. -/
def PostThread.rank : PostThread → Nat
  | .select => 0
  | .posting _ => 2
  | .forwarding _ => 1
  | .returned => 0

/-- Steps `CleanThread` can still take without receiving anything. -/
def CleanThread.rank : CleanThread → Nat
  | .select _ => 0
  | .marshal _ => 3
  | .write _ => 2
  | .completing => 1
  | .returned => 0

/-- A bound on the steps that follow, counted from where `main` is. -/
def Main.rank (cfg : Config) : Main → Nat
  | .startClean => 10 + 3 * cfg.Threads.toNat + 4 * cfg.ProxyList.length
  | .spawnLoop i =>
      9 + 2 * cfg.Threads.toNat + 4 * cfg.ProxyList.length + (cfg.Threads - i).toNat
  | .slice => 8 + 2 * cfg.Threads.toNat + 4 * cfg.ProxyList.length
  | .rangeLoop _ rest => 7 + 2 * cfg.Threads.toNat + 4 * rest.length
  | .sending _ _ rest => 10 + 2 * cfg.Threads.toNat + 4 * rest.length
  | .killLoop i => 6 + 2 * (cfg.Threads - i).toNat
  | .killing i => 7 + 2 * (cfg.Threads - (i + 1)).toNat
  | .quitClean => 5
  | .sendingQuitClean => 4
  | .waitCompleted => 0
  | .done => 0
  | .panicked => 0

/-- The termination measure: every step makes it smaller. -/
def State.rank (cfg : Config) (s : State) : Nat :=
  s.main.rank cfg + (s.posts.map PostThread.rank).sum +
    (match s.clean with
     | some c => c.rank
     | none => 0)

/-- The runs that cannot stop short of the end: `main` has left the dispatch
loop, or there is a worker to take the items and the slice is defined. -/
def Live (cfg : Config) (s : State) : Prop :=
  s.main.pastDispatch = true ∨
    (1 ≤ cfg.Threads ∧ (sliceFrom cfg.ProxyList cfg.Entrance).isSome = true ∧
      s.main ≠ .panicked)

/-! ## The dispatch loop -/

/-- The parse of line 176: `url.Parse("http://" + proxy)`. -/
def Config.parseItem (cfg : Config) (proxy : String) : Option URL :=
  cfg.urlParse ("http://" ++ proxy)

/-- The items of a list paired with their loop index, counted from `i`. -/
def indexFrom (i : Int) : List String → List (Int × String)
  | [] => []
  | p :: ps => (i, p) :: indexFrom (i + 1) ps

/-- The endpoints `main` has still to send, given the slice it ranges over. -/
def pendingURLs (cfg : Config) (items : List String) : Main → List URL
  | .startClean => items.filterMap cfg.parseItem
  | .spawnLoop _ => items.filterMap cfg.parseItem
  | .slice => items.filterMap cfg.parseItem
  | .rangeLoop _ rest => rest.filterMap cfg.parseItem
  | .sending _ u rest => u :: rest.filterMap cfg.parseItem
  | _ => []

/-- The items `main` has still to skip with a logged parse error. -/
def pendingErrors (cfg : Config) (items : List String) : Main → List String
  | .startClean => items.filter (fun p => (cfg.parseItem p).isNone)
  | .spawnLoop _ => items.filter (fun p => (cfg.parseItem p).isNone)
  | .slice => items.filter (fun p => (cfg.parseItem p).isNone)
  | .rangeLoop _ rest => rest.filter (fun p => (cfg.parseItem p).isNone)
  | .sending _ _ rest => rest.filter (fun p => (cfg.parseItem p).isNone)
  | _ => []

/-- The calls of `url.Parse` `main` has still to make. -/
def pendingCalls (items : List String) : Main → List (Int × String)
  | .startClean => indexFrom 0 items
  | .spawnLoop _ => indexFrom 0 items
  | .slice => indexFrom 0 items
  | .rangeLoop i rest => indexFrom i rest
  | .sending i _ rest => indexFrom (i + 1) rest
  | _ => []

/-- The endpoint `main` is blocked sending, if any. -/
def pendingSend : Main → List URL
  | .sending _ u _ => [u]
  | _ => []

/-- The account of the dispatch loop over the slice `items`: what was sent,
skipped and parsed so far, followed by what is still to come, is the whole;
and what was sent is what the parse calls so far gave. -/
def dispatchInv (cfg : Config) (items : List String) (s : State) : Prop :=
  s.main ≠ .panicked ∧
  sentURLs s.trace ++ pendingURLs cfg items s.main = items.filterMap cfg.parseItem ∧
  parseErrors s.trace ++ pendingErrors cfg items s.main =
    items.filter (fun p => (cfg.parseItem p).isNone) ∧
  parseCalls s.trace ++ pendingCalls items s.main = indexFrom 0 items ∧
  sentURLs s.trace ++ pendingSend s.main =
    (parseCalls s.trace).filterMap (fun ip => cfg.parseItem ip.2)

/-- With no worker and a parseable item ahead, `main` is on its way to the
send that blocks, or blocked in it. -/
def blockedInv (cfg : Config) (s : State) : Prop :=
  match s.main with
  | .startClean => True
  | .spawnLoop _ => True
  | .slice => True
  | .rangeLoop _ rest => ∃ p ∈ rest, (cfg.parseItem p).isSome = true
  | .sending _ _ _ => True
  | _ => False

/-! ## Concrete runs -/

/-- The state a schedule leads to from the initial state; the initial state
itself when some action of the schedule is not enabled. -/
def runFrom (cfg : Config) (as : List Action) : State :=
  (run cfg init as).getD init

/-- One worker, no collection, offset 0, the second item does not parse. -/
def configSkip : Config :=
  sampleConfig ["a:1", "bad proxy", "c:3"] 1 0 false

/-- A complete run of `configSkip`: the first call succeeds, the third fails. -/
def scheduleSkip : List Action :=
  [.main, .main, .main, .main, .main, .dispatch 0, .postDone 0 true, .main, .main,
    .dispatch 0, .postDone 0 false, .main, .main, .kill 0, .main, .main]

/-- One worker, no collection, offset 2 into three items. -/
def configOffset : Config :=
  sampleConfig ["a:1", "bad", "c:3"] 1 2 false

/-- A complete run of `configOffset`. -/
def scheduleOffset : List Action :=
  [.main, .main, .main, .main, .main, .dispatch 0, .main, .postDone 0 true, .main,
    .kill 0, .main, .main]

/-- No worker, collection enabled, one parseable item. -/
def configNoWorker : Config :=
  sampleConfig ["a:1"] 0 0 true

/-- No worker, collection disabled, offset 1 into two parseable items. -/
def configNoWorkerOffset : Config :=
  sampleConfig ["a:1", "b:2"] 0 1 false

/-- No worker, collection disabled, offset -1 before one parseable item. -/
def configNegative : Config :=
  sampleConfig ["a:1"] 0 (-1) false

/-- One worker, offset 2 into a list of one item. -/
def configOutOfRange : Config :=
  sampleConfig ["a:1"] 1 2 false

/-- Two workers, collection enabled, two parseable items. -/
def configTwo : Config :=
  sampleConfig ["a:1", "b:2"] 2 0 true

/-- A run of `configTwo` up to the moment `main` is blocked sending its first
quit token while worker 0 is blocked forwarding a success on `CleanChannel`
and worker 1 still has its call in flight. -/
def scheduleDraining : List Action :=
  [.main, .main, .main, .main, .main, .main, .dispatch 0, .main, .dispatch 1,
    .postDone 0 true, .main, .main]

/-- The run of `configTwo` continued to the moment `CleanThread` has taken its
quit signal: both calls have succeeded and both workers have returned. -/
def scheduleQuit : List Action :=
  scheduleDraining ++
    [.forward 0, .kill 0, .postDone 1 true, .forward 1, .main, .kill 1, .main, .main,
      .quitClean]

/-- A complete run of `configTwo`: the file is written. -/
def scheduleTwo : List Action :=
  scheduleQuit ++ [.marshal true, .write true, .completed]

/-- One worker, collection disabled, one item. -/
def configPlain : Config :=
  sampleConfig ["a:1"] 1 0 false

/-- A complete run of `configPlain`: the call succeeds. -/
def schedulePlain : List Action :=
  [.main, .main, .main, .main, .main, .dispatch 0, .postDone 0 true, .main, .main,
    .kill 0, .main, .main]

/-- The quit-token account: workers spawned are the workers that exist, quit
tokens sent are the workers that returned, and worker `w` took a quit token
exactly when it returned. -/
def quitInv (s : State) : Prop :=
  s.trace.count .spawnPost = s.posts.length ∧
  s.trace.count .sendQuit = s.posts.countP PostThread.isReturned ∧
  ∀ w : Nat, s.trace.count (.recvQuit w) = if s.posts[w]? = some .returned then 1 else 0

/-! ## The collector -/

/-- The endpoints the workers are blocked sending on `CleanChannel`. -/
def forwardingURLs : List PostThread → List URL
  | [] => []
  | .forwarding u :: ps => u :: forwardingURLs ps
  | _ :: ps => forwardingURLs ps

/-- Whether the worker has a `PostForm` call in flight. -/
def PostThread.isPosting : PostThread → Bool
  | .posting _ => true
  | _ => false

/-- The slice `proxies` of `CleanThread`, while it still holds it. -/
def CleanThread.held : CleanThread → Option (List String)
  | .select l => some l
  | .marshal l => some l
  | .write l => some l
  | _ => none

/-- Whether `CleanThread` is past `json.Marshal`. -/
def CleanThread.marshalled : CleanThread → Bool
  | .write _ => true
  | .completing => true
  | .returned => true
  | _ => false

/-- The account of the collector: every success was sent on `CleanChannel` or
is about to be, `CleanThread` holds the hosts it received, in order, and what
it has serialised or written is that list. -/
def collectInv (s : State) : Prop :=
  List.Perm (okURLs s.trace) (cleanURLs s.trace ++ forwardingURLs s.posts) ∧
  (∀ c l, s.clean = some c → c.held = some l → l = (cleanURLs s.trace).map URL.Host) ∧
  (∀ l ∈ savedLists s.trace, l = (cleanURLs s.trace).map URL.Host) ∧
  (savedLists s.trace ≠ [] → s.main = .waitCompleted ∨ s.main = .done) ∧
  (∀ c, s.clean = some c → c.marshalled = true → savedLists s.trace ≠ []) ∧
  (okURLs s.trace).length + s.posts.countP PostThread.isPosting ≤ (sentURLs s.trace).length ∧
  (s.clean = none → cleanURLs s.trace = [])

/-- Three workers, collection enabled, five parseable items. -/
def configFive : Config :=
  sampleConfig ["a:1", "b:2", "c:3", "d:4", "e:5"] 3 0 true

/-- A complete run of `configFive` in which all five calls succeed. -/
def scheduleFive : List Action :=
  [.main, .main, .main, .main, .main, .main,
    .main, .dispatch 0, .main, .dispatch 1, .main, .dispatch 2,
    .postDone 0 true, .forward 0, .main, .dispatch 0,
    .postDone 1 true, .forward 1, .main, .dispatch 1,
    .postDone 2 true, .forward 2, .postDone 1 true, .postDone 0 true, .forward 1,
    .forward 0, .main, .main, .kill 0, .main, .kill 1, .main, .kill 2, .main, .main,
    .quitClean, .marshal true, .write true, .completed]

/-- Whether the event is a call of `ioutil.WriteFile`. -/
def Event.isWrite : Event → Bool
  | .writeFile _ _ => true
  | _ => false

/-- Whether the event is a call of `json.Marshal` that returned an error. -/
def Event.isMarshalFail : Event → Bool
  | .marshal _ false => true
  | _ => false

/-- Whether the event is a call of `ioutil.WriteFile` that returned an error. -/
def Event.isWriteFail : Event → Bool
  | .writeFile _ false => true
  | _ => false

/-- Whether `CleanThread` is past the serialise and write step. -/
def CleanThread.saved : CleanThread → Bool
  | .completing => true
  | .returned => true
  | _ => false

/-- The account of `CleanThread` after its quit signal: the completion token
was sent exactly when it returned, the file write was attempted at most once
and not before the serialise and write step, and every failure was logged. -/
def completeInv (s : State) : Prop :=
  s.trace.count .sendCompleted = (if s.clean = some .returned then 1 else 0) ∧
  s.trace.countP Event.isWrite ≤ 1 ∧
  (s.clean = none → s.trace.countP Event.isWrite = 0) ∧
  (∀ c, s.clean = some c → c.saved = false → s.trace.countP Event.isWrite = 0) ∧
  s.trace.count .logMarshalError = s.trace.countP Event.isMarshalFail ∧
  s.trace.count .logWriteError = s.trace.countP Event.isWriteFail

/-! ## One worker -/

/-- The endpoints worker `w` has received from `ProxyChannel`, in order. -/
def recvBy (w : Nat) (tr : List Event) : List URL :=
  tr.filterMap (fun e => match e with
    | .recvProxy w' u => if w' = w then some u else none
    | _ => none)

/-- The calls of worker `w` that have returned, in order: the endpoint, and
whether the call returned without an error. -/
def outcomesBy (w : Nat) (tr : List Event) : List (URL × Bool) :=
  tr.filterMap (fun e => match e with
    | .postOk w' u => if w' = w then some (u, true) else none
    | .postErr w' u => if w' = w then some (u, false) else none
    | _ => none)

/-- The endpoints worker `w` has sent on `CleanChannel`, in order. -/
def cleanBy (w : Nat) (tr : List Event) : List URL :=
  tr.filterMap (fun e => match e with
    | .sendClean w' u => if w' = w then some u else none
    | _ => none)

/-- The endpoint whose call the worker has in flight, if any. -/
def inFlight : Option PostThread → List URL
  | some (.posting u) => [u]
  | _ => []

/-- The endpoint the worker is blocked sending on `CleanChannel`, if any. -/
def toForward : Option PostThread → List URL
  | some (.forwarding u) => [u]
  | _ => []

/-- Whether `main` has not yet reached the dispatch loop, or has panicked on
the way to it. -/
def Main.beforeDispatch : Main → Bool
  | .startClean => true
  | .spawnLoop _ => true
  | .slice => true
  | .panicked => true
  | _ => false

/-- Before the dispatch loop every worker waits in its `select`. -/
def idleInv (s : State) : Prop :=
  s.main.beforeDispatch = true → ∀ p ∈ s.posts, p = .select

/-- The account of worker `w`: each endpoint it received has had its call
return or has it in flight; what it sent on `CleanChannel`, with what it is
about to send, is its successes when `CleanProxies` is set and nothing
otherwise; it logged each failure; a worker that does not exist received
nothing. -/
def workerInv (cfg : Config) (s : State) : Prop :=
  ∀ w : Nat,
    recvBy w s.trace = (outcomesBy w s.trace).map Prod.fst ++ inFlight s.posts[w]? ∧
    cleanBy w s.trace ++ toForward s.posts[w]? =
      (if cfg.CleanProxies = true then
        ((outcomesBy w s.trace).filter Prod.snd).map Prod.fst else []) ∧
    s.trace.count (.logPostError w) =
      ((outcomesBy w s.trace).filter (fun o => !o.2)).length ∧
    (s.posts[w]? = none → recvBy w s.trace = [])

/-! ## The transition relation and reachability -/

theorem trans_of_step {cfg : Config} {s s' : State} {a : Action}
    (h : step cfg s a = some s') : Trans cfg s s' := by
  obtain ⟨m, ps, c, tr⟩ := s
  cases a with
  | main =>
    simp only [step, stepMain] at h
    split at h <;> try split at h
    all_goals first
      | (exfalso; simp at h; done)
      | (simp only [Option.some.injEq] at h; subst h; constructor <;> simp_all)
  | postDone w ok =>
    simp only [step, stepPostDone] at h
    split at h
    · simp at h
    · split at h
      · split at h <;> try split at h
        all_goals (simp only [Option.some.injEq] at h; subst h; constructor <;> simp_all)
      · simp at h
  | dispatch w | kill w | quitClean | completed =>
    simp only [step, stepDispatch, stepKill, stepQuitClean, stepCompleted] at h
    split at h
    · simp only [Option.some.injEq] at h; subst h; constructor <;> simp_all
    · simp at h
  | forward w | marshal ok | write ok =>
    simp only [step, stepForward, stepMarshal, stepWrite] at h
    split at h
    · simp at h
    · split at h <;> try split at h
      all_goals first
        | (exfalso; simp at h; done)
        | (simp only [Option.some.injEq] at h; subst h; constructor <;> simp_all)

theorem run_append (cfg : Config) (s : State) (as bs : List Action) :
    run cfg s (as ++ bs) = (run cfg s as).bind (fun s' => run cfg s' bs) := by
  induction as generalizing s with
  | nil => simp [run]
  | cons a as ih =>
    simp only [List.cons_append, run]
    cases step cfg s a with
    | none => simp
    | some s1 => simpa using ih s1

theorem reach_init (cfg : Config) : Reach cfg init := ⟨[], rfl⟩

theorem reach_step {cfg : Config} {s s' : State} {a : Action} (hr : Reach cfg s)
    (h : step cfg s a = some s') : Reach cfg s' := by
  obtain ⟨as, has⟩ := hr
  refine ⟨as ++ [a], ?_⟩
  rw [run_append, has]
  simp [run, h]

theorem reach_induction {cfg : Config} {P : State → Prop} (h0 : P init)
    (hstep : ∀ s s', Reach cfg s → P s → Trans cfg s s' → P s') :
    ∀ s, Reach cfg s → P s := by
  have key : ∀ (as : List Action) (s : State), run cfg init as = some s → P s := by
    intro as
    induction as using List.reverseRecOn with
    | nil => intro s h; simp [run] at h; subst h; exact h0
    | append_singleton as a ih =>
      intro s h
      rw [run_append] at h
      cases hm : run cfg init as with
      | none => simp [hm] at h
      | some s1 =>
        simp only [hm, Option.some_bind, run] at h
        cases hs : step cfg s1 a with
        | none => simp [hs] at h
        | some s2 =>
          simp only [hs, Option.some_bind, Option.some.injEq] at h
          subst h
          exact hstep s1 s2 ⟨as, hm⟩ (ih s1 hm) (trans_of_step hs)
  intro s ⟨as, has⟩
  exact key as s has

/-! ## Lists of workers -/

theorem countP_set_get {α : Type} (p : α → Bool) (l : List α) (w : Nat) (x y : α)
    (h : l[w]? = some y) :
    (l.set w x).countP p + (if p y = true then 1 else 0) =
      l.countP p + (if p x = true then 1 else 0) := by
  induction l generalizing w with
  | nil => simp at h
  | cons a l ih =>
    cases w with
    | zero =>
      simp only [List.getElem?_cons_zero, Option.some.injEq] at h
      subst h
      simp only [List.set_cons_zero, List.countP_cons]
      omega
    | succ w =>
      simp only [List.getElem?_cons_succ] at h
      have := ih w h
      simp only [List.set_cons_succ, List.countP_cons]
      omega

theorem sum_rank_set (l : List PostThread) (w : Nat) (x y : PostThread) (h : l[w]? = some y) :
    ((l.set w x).map PostThread.rank).sum + y.rank = (l.map PostThread.rank).sum + x.rank := by
  induction l generalizing w with
  | nil => simp at h
  | cons a l ih =>
    cases w with
    | zero =>
      simp only [List.getElem?_cons_zero, Option.some.injEq] at h
      subst h
      simp only [List.set_cons_zero, List.map_cons, List.sum_cons]
      omega
    | succ w =>
      simp only [List.getElem?_cons_succ] at h
      have := ih w h
      simp only [List.set_cons_succ, List.map_cons, List.sum_cons]
      omega

theorem exists_get_of_countP_lt {α : Type} (p : α → Bool) (l : List α)
    (h : l.countP p < l.length) : ∃ (w : Nat) (y : α), l[w]? = some y ∧ p y = false := by
  induction l with
  | nil => simp at h
  | cons a l ih =>
    cases hp : p a with
    | false =>
      refine ⟨0, a, ?_, hp⟩
      simp
    | true =>
      simp only [List.countP_cons, hp, if_true, List.length_cons] at h
      obtain ⟨w, y, hw, hy⟩ := ih (by omega)
      exact ⟨w + 1, y, by simpa using hw, hy⟩

theorem countP_pos_of_get {α : Type} (p : α → Bool) (l : List α) (w : Nat) (y : α)
    (h : l[w]? = some y) (hy : p y = true) : 0 < l.countP p := by
  rw [List.countP_pos_iff]
  refine ⟨y, ?_, hy⟩
  obtain ⟨hw, rfl⟩ := List.getElem?_eq_some.mp h
  exact List.getElem_mem hw

/-! ## The invariant holds in every reachable state -/

theorem inv_init (cfg : Config) : Inv cfg init := by
  simp [Inv, init, cleanShape, postsShape]

theorem inv_trans {cfg : Config} {s s' : State} (hi : Inv cfg s) (h : Trans cfg s s') :
    Inv cfg s' := by
  cases h with
  | startCleanOn hc => simp_all [Inv, cleanShape, postsShape]
  | startCleanOff hc => simp_all [Inv, cleanShape, postsShape]
  | spawn hlt =>
    simp_all [Inv, cleanShape, postsShape, PostThread.isReturned, PostThread.isForwarding]
    omega
  | spawnEnd hlt =>
    simp_all [Inv, cleanShape, postsShape]
    omega
  | sliceOk hs => simp_all [Inv, cleanShape, postsShape]
  | slicePanic hs => simp_all [Inv, cleanShape, postsShape]
  | rangeEnd => simp_all [Inv, cleanShape, postsShape]
  | parseErr hp => simp_all [Inv, cleanShape, postsShape]
  | parseOk hp => simp_all [Inv, cleanShape, postsShape]
  | killNext hlt => simp_all [Inv, cleanShape, postsShape]
  | killEnd hlt =>
    obtain ⟨h1, ⟨h2, h3⟩, h4⟩ := hi
    refine ⟨h1, ⟨h2, ?_⟩, h4⟩
    have := List.countP_le_length PostThread.isReturned (l := ‹List PostThread›)
    simp only at h2 h3 this ⊢
    omega
  | quitCleanOn hc =>
    obtain ⟨h1, h2, h3⟩ := hi
    refine ⟨?_, h2, h3⟩
    simp_all [cleanShape]
  | quitCleanOff hc =>
    obtain ⟨h1, h2, h3⟩ := hi
    refine ⟨?_, h2, h3⟩
    simp_all [cleanShape]
  | dispatch w hw =>
    obtain ⟨h1, h2, h3⟩ := hi
    have hr := countP_set_get PostThread.isReturned _ w (.posting ‹URL›) _ hw
    have hf := countP_set_get PostThread.isForwarding _ w (.posting ‹URL›) _ hw
    simp only [PostThread.isReturned, PostThread.isForwarding] at hr hf
    refine ⟨h1, ?_, ?_⟩
    · simp_all [postsShape]
    · simp_all
  | postOkOn w hm hw hc =>
    rename_i m ps c tr u
    obtain ⟨h1, h2, h3⟩ := hi
    have hr := countP_set_get PostThread.isReturned _ w (.forwarding u) _ hw
    simp only [PostThread.isReturned] at hr
    refine ⟨h1, ?_, by simp [hc]⟩
    cases m <;> simp_all [postsShape]
  | postOkOff w hm hw hc =>
    rename_i m ps c tr u
    obtain ⟨h1, h2, h3⟩ := hi
    have hr := countP_set_get PostThread.isReturned _ w .select _ hw
    have hf := countP_set_get PostThread.isForwarding _ w .select _ hw
    simp only [PostThread.isReturned, PostThread.isForwarding] at hr hf
    refine ⟨h1, ?_, ?_⟩
    · cases m <;> simp_all [postsShape]
    · simp_all
  | postFail w hm hw =>
    rename_i m ps c tr u
    obtain ⟨h1, h2, h3⟩ := hi
    have hr := countP_set_get PostThread.isReturned _ w .select _ hw
    have hf := countP_set_get PostThread.isForwarding _ w .select _ hw
    simp only [PostThread.isReturned, PostThread.isForwarding] at hr hf
    refine ⟨h1, ?_, ?_⟩
    · cases m <;> simp_all [postsShape]
    · simp_all
  | forward w hm hw =>
    rename_i m ps l tr u
    obtain ⟨h1, h2, h3⟩ := hi
    have hr := countP_set_get PostThread.isReturned _ w .select _ hw
    have hf := countP_set_get PostThread.isForwarding _ w .select _ hw
    simp only [PostThread.isReturned, PostThread.isForwarding] at hr hf
    refine ⟨?_, ?_, ?_⟩
    · cases m <;> simp_all [cleanShape]
    · cases m <;> simp_all [postsShape]
    · intro hc
      have h0 := h3 hc
      simp at hf
      simp only at h0 ⊢
      omega
  | kill w hw =>
    obtain ⟨h1, h2, h3⟩ := hi
    have hr := countP_set_get PostThread.isReturned _ w .returned _ hw
    have hf := countP_set_get PostThread.isForwarding _ w .returned _ hw
    simp only [PostThread.isReturned, PostThread.isForwarding] at hr hf
    refine ⟨h1, ?_, ?_⟩
    · simp_all [postsShape]
    · simp_all
  | quitClean => simp_all [Inv, cleanShape, postsShape]
  | marshalOk hm =>
    rename_i m ps l tr
    obtain ⟨h1, h2, h3⟩ := hi
    refine ⟨?_, h2, h3⟩
    cases m <;> simp_all [cleanShape]
  | marshalFail hm =>
    rename_i m ps l tr
    obtain ⟨h1, h2, h3⟩ := hi
    refine ⟨?_, h2, h3⟩
    cases m <;> simp_all [cleanShape]
  | writeOk hm =>
    rename_i m ps l tr
    obtain ⟨h1, h2, h3⟩ := hi
    refine ⟨?_, h2, h3⟩
    cases m <;> simp_all [cleanShape]
  | writeFail hm =>
    rename_i m ps l tr
    obtain ⟨h1, h2, h3⟩ := hi
    refine ⟨?_, h2, h3⟩
    cases m <;> simp_all [cleanShape]
  | completed => simp_all [Inv, cleanShape, postsShape]

theorem inv_of_reach {cfg : Config} {s : State} (hr : Reach cfg s) : Inv cfg s :=
  reach_induction (inv_init cfg) (fun _ _ _ hi ht => inv_trans hi ht) s hr

/-! ## Termination and progress -/

theorem sliceFrom_length {l items : List String} {e : Int} (h : sliceFrom l e = some items) :
    items.length ≤ l.length := by
  unfold sliceFrom at h
  split at h
  · simp only [Option.some.injEq] at h
    subst h
    simp
  · simp at h

theorem rank_trans {cfg : Config} {s s' : State} (h : Trans cfg s s') :
    s'.rank cfg < s.rank cfg := by
  cases h with
  | sliceOk hs =>
    have := sliceFrom_length hs
    simp only [State.rank, Main.rank]
    omega
  | dispatch w hw =>
    have := sum_rank_set _ w (.posting ‹URL›) _ hw
    simp only [State.rank, Main.rank, PostThread.rank] at this ⊢
    omega
  | postOkOn w hm hw hc =>
    have := sum_rank_set _ w (.forwarding ‹URL›) _ hw
    simp only [State.rank, Main.rank, PostThread.rank] at this ⊢
    omega
  | postOkOff w hm hw hc =>
    have := sum_rank_set _ w .select _ hw
    simp only [State.rank, Main.rank, PostThread.rank] at this ⊢
    omega
  | postFail w hm hw =>
    have := sum_rank_set _ w .select _ hw
    simp only [State.rank, Main.rank, PostThread.rank] at this ⊢
    omega
  | forward w hm hw =>
    have := sum_rank_set _ w .select _ hw
    simp only [State.rank, Main.rank, PostThread.rank, CleanThread.rank] at this ⊢
    omega
  | kill w hw =>
    have := sum_rank_set _ w .returned _ hw
    simp only [State.rank, Main.rank, PostThread.rank] at this ⊢
    omega
  | _ =>
    simp only [State.rank, Main.rank, CleanThread.rank, List.map_append, List.sum_append,
      List.map_cons, List.map_nil, List.sum_cons, List.sum_nil, PostThread.rank, List.length_cons]
    omega

theorem rank_step {cfg : Config} {s s' : State} {a : Action}
    (h : step cfg s a = some s') : s'.rank cfg < s.rank cfg :=
  rank_trans (trans_of_step h)

theorem live_trans {cfg : Config} {s s' : State} (hl : Live cfg s) (h : Trans cfg s s') :
    Live cfg s' := by
  cases h <;> simp_all [Live, Main.pastDispatch, Main.exited]

/-- In a state that satisfies the invariant, where `main` has not panicked and
is not sending to an empty pool, `main` has returned or some action is
enabled. -/
theorem progress {cfg : Config} {s : State} (hi : Inv cfg s) (hpan : s.main ≠ .panicked)
    (hsend : ∀ i u rest, s.main = .sending i u rest → 1 ≤ cfg.Threads) :
    s.main = .done ∨ ∃ a s', step cfg s a = some s' := by
  obtain ⟨m, ps, c, tr⟩ := s
  obtain ⟨h1, h2, h3⟩ := hi
  -- a worker that has not returned can move, or take what `main` offers
  have worker : ∀ (w : Nat) (y : PostThread), ps[w]? = some y → y.isReturned = false →
      m.exited = false → (y.isForwarding = true → ∃ l, c = some (.select l)) →
      y = .select ∨ ∃ a s', step cfg ⟨m, ps, c, tr⟩ a = some s' := by
    intro w y hw hy hm hc
    cases y with
    | select => exact Or.inl rfl
    | returned => simp [PostThread.isReturned] at hy
    | posting u =>
      refine Or.inr ⟨.postDone w false, ?_⟩
      simp [step, stepPostDone, hm, hw]
    | forwarding u =>
      obtain ⟨l, rfl⟩ := hc rfl
      refine Or.inr ⟨.forward w, ?_⟩
      simp [step, stepForward, hm, hw]
  cases m with
  | done => exact Or.inl rfl
  | panicked => exact absurd rfl hpan
  | startClean =>
    refine Or.inr ⟨.main, ?_⟩
    by_cases hc : cfg.CleanProxies = true <;> simp [step, stepMain, hc]
  | spawnLoop i =>
    refine Or.inr ⟨.main, ?_⟩
    by_cases hc : i < cfg.Threads <;> simp [step, stepMain, hc]
  | slice =>
    refine Or.inr ⟨.main, ?_⟩
    cases hs : sliceFrom cfg.ProxyList cfg.Entrance <;> simp [step, stepMain, hs]
  | rangeLoop i rest =>
    refine Or.inr ⟨.main, ?_⟩
    cases rest with
    | nil => simp [step, stepMain]
    | cons p rest =>
      cases hp : cfg.urlParse ("http://" ++ p) <;> simp [step, stepMain, hp]
  | killLoop i =>
    refine Or.inr ⟨.main, ?_⟩
    by_cases hc : i < cfg.Threads <;> simp [step, stepMain, hc]
  | quitClean =>
    refine Or.inr ⟨.main, ?_⟩
    by_cases hc : cfg.CleanProxies = true <;> simp [step, stepMain, hc]
  | sendingQuitClean =>
    obtain ⟨_, l, rfl⟩ := h1
    exact Or.inr ⟨.quitClean, by simp [step, stepQuitClean]⟩
  | waitCompleted =>
    obtain ⟨_, l, rfl | rfl | rfl⟩ := h1
    · exact Or.inr ⟨.marshal true, by simp [step, stepMarshal, Main.exited]⟩
    · exact Or.inr ⟨.write true, by simp [step, stepWrite, Main.exited]⟩
    · exact Or.inr ⟨.completed, by simp [step, stepCompleted]⟩
  | sending i u rest =>
    right
    have hT : 1 ≤ cfg.Threads := hsend i u rest rfl
    simp only [postsShape] at h2
    obtain ⟨w, y, hw, hy⟩ := exists_get_of_countP_lt PostThread.isReturned ps (by omega)
    have hcl : y.isForwarding = true → ∃ l, c = some (.select l) := by
      intro hyf
      by_cases hc : cfg.CleanProxies = true
      · simpa only [cleanShape, hc, if_true] using h1
      · have h0 := h3 (by simpa using hc)
        simp only at h0
        have := countP_pos_of_get PostThread.isForwarding ps w y hw hyf
        omega
    rcases worker w y hw hy rfl hcl with rfl | hstep
    · exact ⟨.dispatch w, by simp [step, stepDispatch, hw]⟩
    · exact hstep
  | killing i =>
    right
    simp only [postsShape] at h2
    obtain ⟨w, y, hw, hy⟩ := exists_get_of_countP_lt PostThread.isReturned ps (by omega)
    have hcl : y.isForwarding = true → ∃ l, c = some (.select l) := by
      intro hyf
      by_cases hc : cfg.CleanProxies = true
      · simpa only [cleanShape, hc, if_true] using h1
      · have h0 := h3 (by simpa using hc)
        simp only at h0
        have := countP_pos_of_get PostThread.isForwarding ps w y hw hyf
        omega
    rcases worker w y hw hy rfl hcl with rfl | hstep
    · exact ⟨.kill w, by simp [step, stepKill, hw]⟩
    · exact hstep

theorem live_facts {cfg : Config} {s : State} (hl : Live cfg s) :
    s.main ≠ .panicked ∧ ∀ i u rest, s.main = .sending i u rest → 1 ≤ cfg.Threads := by
  rcases hl with h | ⟨hT, _, hp⟩
  · constructor
    · intro hm
      simp [hm, Main.pastDispatch] at h
    · intro i u rest hm
      simp [hm, Main.pastDispatch] at h
  · exact ⟨hp, fun _ _ _ _ => hT⟩

/-- A property that holds wherever no step is possible, among states closed
under steps that all can move until it holds, is inevitable. -/
theorem inev_of_progress {cfg : Config} {P Q : State → Prop}
    (hclosed : ∀ s a s', Q s → step cfg s a = some s' → Q s')
    (hprog : ∀ s, Q s → P s ∨ ∃ a s', step cfg s a = some s') :
    ∀ s, Q s → Inev cfg P s := by
  suffices key : ∀ (n : Nat) (s : State), s.rank cfg = n → Q s → Inev cfg P s from
    fun s => key _ s rfl
  intro n
  induction n using Nat.strong_induction_on with
  | _ n ih =>
    intro s hn hq
    rcases hprog s hq with hp | hex
    · exact .now hp
    · refine .later hex ?_
      intro a s' hs
      exact ih (s'.rank cfg) (hn ▸ rank_step hs) s' rfl (hclosed s a s' hq hs)

/-- From every reachable live state, on every schedule, `main` returns. -/
theorem inev_done {cfg : Config} {s : State} (hr : Reach cfg s) (hl : Live cfg s) :
    Inev cfg (fun s' => Reach cfg s' ∧ s'.main = .done) s := by
  refine inev_of_progress (Q := fun s => Reach cfg s ∧ Live cfg s) ?_ ?_ s ⟨hr, hl⟩
  · intro s a s' ⟨hr, hl⟩ hs
    exact ⟨reach_step hr hs, live_trans hl (trans_of_step hs)⟩
  · intro s ⟨hr, hl⟩
    rcases progress (inv_of_reach hr) (live_facts hl).1 (live_facts hl).2 with hd | hex
    · exact Or.inl ⟨hr, hd⟩
    · exact Or.inr hex

/-- A property is inevitable from every state of a set whose members satisfy
it or can move, every move leading back into the set. -/
theorem inev_until {cfg : Config} {P Q : State → Prop}
    (hprog : ∀ s, Q s → P s ∨
      ((∃ a s', step cfg s a = some s') ∧ ∀ a s', step cfg s a = some s' → Q s')) :
    ∀ s, Q s → Inev cfg P s := by
  suffices key : ∀ (n : Nat) (s : State), s.rank cfg = n → Q s → Inev cfg P s from
    fun s => key _ s rfl
  intro n
  induction n using Nat.strong_induction_on with
  | _ n ih =>
    intro s hn hq
    rcases hprog s hq with hp | ⟨hex, hcl⟩
    · exact .now hp
    · refine .later hex ?_
      intro a s' hs
      exact ih (s'.rank cfg) (hn ▸ rank_step hs) s' rfl (hcl a s' hs)

/-! ## The dispatch loop -/

theorem dispatchInv_init (cfg : Config) (items : List String) : dispatchInv cfg items init := by
  simp [dispatchInv, init, sentURLs, parseErrors, parseCalls, pendingURLs, pendingErrors,
    pendingCalls, pendingSend]

theorem dispatchInv_frame {cfg : Config} {items : List String} {s s' : State}
    (hm : s'.main = s.main) (h1 : sentURLs s'.trace = sentURLs s.trace)
    (h2 : parseErrors s'.trace = parseErrors s.trace)
    (h3 : parseCalls s'.trace = parseCalls s.trace) (hi : dispatchInv cfg items s) :
    dispatchInv cfg items s' := by
  unfold dispatchInv at hi ⊢
  rw [hm, h1, h2, h3]
  exact hi

theorem dispatchInv_trans {cfg : Config} {items : List String} {s s' : State}
    (hs : sliceFrom cfg.ProxyList cfg.Entrance = some items)
    (hi : dispatchInv cfg items s) (h : Trans cfg s s') : dispatchInv cfg items s' := by
  cases h with
  | sliceOk hs' =>
    rw [hs] at hs'
    simp only [Option.some.injEq] at hs'
    subst hs'
    simpa [dispatchInv, pendingURLs, pendingErrors, pendingCalls, pendingSend] using hi
  | slicePanic hs' => simp [hs] at hs'
  | parseErr hp =>
    have hp' : cfg.parseItem ‹String› = none := hp
    obtain ⟨h0, h1, h2, h3, h4⟩ := hi
    simp only [pendingURLs, pendingErrors, pendingCalls, pendingSend, List.filterMap_cons,
      List.filter_cons, hp', Option.isNone_none, if_true, indexFrom,
      List.append_nil] at h1 h2 h3 h4
    refine ⟨by simp, ?_, ?_, ?_, ?_⟩
    · simpa [sentURLs, pendingURLs] using h1
    · simpa [parseErrors, pendingErrors] using h2
    · simpa [parseCalls, pendingCalls] using h3
    · simpa [sentURLs, parseCalls, pendingSend, hp'] using h4
  | parseOk hp =>
    have hp' : cfg.parseItem ‹String› = some ‹URL› := hp
    obtain ⟨h0, h1, h2, h3, h4⟩ := hi
    simp only [pendingURLs, pendingErrors, pendingCalls, pendingSend, List.filterMap_cons,
      List.filter_cons, hp', Option.isNone_some, indexFrom,
      List.append_nil] at h1 h2 h3 h4
    refine ⟨by simp, ?_, ?_, ?_, ?_⟩
    · simpa [sentURLs, pendingURLs] using h1
    · simpa [parseErrors, pendingErrors] using h2
    · simpa [parseCalls, pendingCalls] using h3
    · simpa [sentURLs, parseCalls, pendingSend, hp'] using h4
  | postOkOn w hm hw hc | postOkOff w hm hw hc | postFail w hm hw | forward w hm hw
  | marshalOk hm | marshalFail hm | writeOk hm | writeFail hm =>
    refine dispatchInv_frame ?_ ?_ ?_ ?_ hi <;> simp [sentURLs, parseErrors, parseCalls]
  | _ =>
    obtain ⟨h0, h1, h2, h3, h4⟩ := hi
    refine ⟨by simp, ?_, ?_, ?_, ?_⟩
    · simpa [sentURLs, pendingURLs] using h1
    · simpa [parseErrors, pendingErrors] using h2
    · simpa [parseCalls, pendingCalls, indexFrom] using h3
    · simpa [sentURLs, parseCalls, pendingSend] using h4

theorem dispatchInv_of_reach {cfg : Config} {items : List String} {s : State}
    (hs : sliceFrom cfg.ProxyList cfg.Entrance = some items) (hr : Reach cfg s) :
    dispatchInv cfg items s :=
  reach_induction (dispatchInv_init cfg items)
    (fun _ _ _ hi ht => dispatchInv_trans hs hi ht) s hr


/-! ## Claims about the dispatch loop -/

theorem sliceFrom_inRange {l : List String} {e : Int}
    (he : 0 ≤ e ∧ e ≤ (l.length : Int)) : sliceFrom l e = some (l.drop e.toNat) := by
  simp [sliceFrom, he]

theorem inev_mono {cfg : Config} {P Q : State → Prop} (hpq : ∀ s, P s → Q s) {s : State}
    (h : Inev cfg P s) : Inev cfg Q s := by
  induction h with
  | now hp => exact .now (hpq _ hp)
  | later hex _ ih => exact .later hex ih

theorem filterMap_length_add {α β : Type} (f : α → Option β) (l : List α) :
    (l.filterMap f).length + (l.filter (fun p => (f p).isNone)).length = l.length := by
  induction l with
  | nil => simp
  | cons a l ih =>
    cases h : f a <;> simp [List.filterMap_cons, List.filter_cons, h] <;> omega

theorem mem_indexFrom {k i : Int} {p : String} {l : List String}
    (h : (i, p) ∈ indexFrom k l) : k ≤ i ∧ l[(i - k).toNat]? = some p := by
  induction l generalizing k with
  | nil => simp [indexFrom] at h
  | cons a l ih =>
    simp only [indexFrom, List.mem_cons, Prod.mk.injEq] at h
    rcases h with ⟨rfl, rfl⟩ | h
    · simp
    · obtain ⟨h1, h2⟩ := ih h
      refine ⟨by omega, ?_⟩
      have : (i - k).toNat = (i - (k + 1)).toNat + 1 := by omega
      rw [this]
      simpa using h2

theorem live_of_threads {cfg : Config} {s : State} (hT : 1 ≤ cfg.Threads)
    (he : 0 ≤ cfg.Entrance ∧ cfg.Entrance ≤ (cfg.ProxyList.length : Int))
    (hr : Reach cfg s) : Live cfg s := by
  right
  refine ⟨hT, by simp [sliceFrom_inRange he], ?_⟩
  exact (dispatchInv_of_reach (sliceFrom_inRange he) hr).1

theorem idleInv_trans {cfg : Config} {s s' : State} (hi : idleInv s) (h : Trans cfg s s') :
    idleInv s' := by
  have stuck : ∀ (m : Main) (ps : List PostThread) (w : Nat) (y : PostThread),
      idleInv ⟨m, ps, s.clean, s.trace⟩ → ps[w]? = some y → y ≠ .select →
      m.beforeDispatch = false := by
    intro m ps w y hid hw hy
    cases hb : m.beforeDispatch with
    | false => rfl
    | true =>
      obtain ⟨hlt, rfl⟩ := List.getElem?_eq_some.mp hw
      exact absurd (hid hb _ (List.getElem_mem hlt)) hy
  cases h with
  | spawn hlt =>
    intro _ p hp
    rcases List.mem_append.mp hp with hp | hp
    · exact hi rfl p hp
    · simpa using hp
  | postOkOn w hm hw hc | postOkOff w hm hw hc | postFail w hm hw | forward w hm hw =>
    intro hb
    have := stuck _ _ w _ hi hw (by simp)
    simp [this] at hb
  | _ => first
    | (intro hb; simp [Main.beforeDispatch] at hb; done)
    | (intro hb; exact hi rfl)
    | exact hi

theorem idleInv_of_reach {cfg : Config} {s : State} (hr : Reach cfg s) : idleInv s :=
  reach_induction (P := idleInv) (by simp [idleInv, init])
    (fun _ _ _ hi ht => idleInv_trans hi ht) s hr

theorem blockedInv_trans {cfg : Config} {s s' : State} (hT : cfg.Threads ≤ 0)
    (he : 0 ≤ cfg.Entrance ∧ cfg.Entrance ≤ (cfg.ProxyList.length : Int))
    (hp : ∃ p ∈ cfg.ProxyList.drop cfg.Entrance.toNat, (cfg.parseItem p).isSome = true)
    (hi : Inv cfg s) (hb : blockedInv cfg s) (h : Trans cfg s s') : blockedInv cfg s' := by
  cases h with
  | sliceOk hs =>
    rw [sliceFrom_inRange he] at hs
    simp only [Option.some.injEq] at hs
    subst hs
    exact hp
  | parseErr hq =>
    have hq' : cfg.parseItem ‹String› = none := hq
    simp only [blockedInv, List.mem_cons] at hb ⊢
    obtain ⟨p, rfl | hmem, hsome⟩ := hb
    · simp [hq'] at hsome
    · exact ⟨p, hmem, hsome⟩
  | dispatch w hw =>
    obtain ⟨_, h2, _⟩ := hi
    simp only [postsShape] at h2
    have hlen : (‹List PostThread›).length = 0 := by omega
    rw [List.length_eq_zero] at hlen
    subst hlen
    simp at hw
  | postOkOn w hm hw hc | postOkOff w hm hw hc | postFail w hm hw | forward w hm hw
  | marshalOk hm | marshalFail hm | writeOk hm | writeFail hm =>
    exact hb
  | slicePanic hs => simp [sliceFrom_inRange he] at hs
  | _ => simp_all [blockedInv]

theorem blockedInv_of_reach {cfg : Config} {s : State} (hT : cfg.Threads ≤ 0)
    (he : 0 ≤ cfg.Entrance ∧ cfg.Entrance ≤ (cfg.ProxyList.length : Int))
    (hp : ∃ p ∈ cfg.ProxyList.drop cfg.Entrance.toNat, (cfg.parseItem p).isSome = true)
    (hr : Reach cfg s) : blockedInv cfg s :=
  reach_induction (P := blockedInv cfg) (by simp [blockedInv, init])
    (fun _ _ hr' hb ht => blockedInv_trans hT he hp (inv_of_reach hr') hb ht) s hr

/-- With an in-range start offset, and a worker or no parseable item from the
offset on, on every schedule `main` returns. -/
theorem inev_done_of {cfg : Config} {s : State}
    (he : 0 ≤ cfg.Entrance ∧ cfg.Entrance ≤ (cfg.ProxyList.length : Int))
    (hk : 1 ≤ cfg.Threads ∨
      (cfg.ProxyList.drop cfg.Entrance.toNat).filterMap cfg.parseItem = [])
    (hr : Reach cfg s) : Inev cfg (fun s' => Reach cfg s' ∧ s'.main = .done) s := by
  refine inev_of_progress (Q := fun s => Reach cfg s) ?_ ?_ s hr
  · intro s a s' hr hs
    exact reach_step hr hs
  · intro s hr
    obtain ⟨hpan, h1, _, _, _⟩ := dispatchInv_of_reach (sliceFrom_inRange he) hr
    have hsend : ∀ i u rest, s.main = .sending i u rest → 1 ≤ cfg.Threads := by
      intro i u rest hm
      rcases hk with hT | h0
      · exact hT
      · rw [h0, hm] at h1
        simp [pendingURLs] at h1
    rcases progress (inv_of_reach hr) hpan hsend with hd | hex
    · exact Or.inl ⟨hr, hd⟩
    · exact Or.inr hex

/-! ## A start offset outside the list -/

theorem panicked_stuck (cfg : Config) (s : State) (hm : s.main = .panicked) (a : Action) :
    step cfg s a = none := by
  obtain ⟨m, ps, c, tr⟩ := s
  simp only at hm
  subst hm
  cases a <;>
    simp [step, stepMain, stepDispatch, stepPostDone, stepForward, stepKill, stepQuitClean,
      stepMarshal, stepWrite, stepCompleted, Main.exited]

theorem panicPath_trans {cfg : Config} {s s' : State}
    (hs : sliceFrom cfg.ProxyList cfg.Entrance = none)
    (hi : s.main.beforeDispatch = true ∧ parseCalls s.trace = [] ∧ sentURLs s.trace = [] ∧
      s.trace.count .sendQuit = 0)
    (h : Trans cfg s s') :
    s'.main.beforeDispatch = true ∧ parseCalls s'.trace = [] ∧ sentURLs s'.trace = [] ∧
      s'.trace.count .sendQuit = 0 := by
  obtain ⟨h0, h1, h2, h3⟩ := hi
  cases h with
  | sliceOk hs' => simp [hs] at hs'
  | rangeEnd | parseErr _ | parseOk _ | killNext _ | killEnd _ | quitCleanOn _
  | quitCleanOff _ | dispatch _ _ | kill _ _ | quitClean | completed =>
    simp [Main.beforeDispatch] at h0
  | _ =>
    refine ⟨h0, ?_, ?_, ?_⟩
    · simpa [parseCalls] using h1
    · simpa [sentURLs] using h2
    · simpa [List.count_append] using h3

/-- With a start offset outside the list, `main` never gets past the slice
expression: it parses nothing, sends nothing and sends no quit token. -/
theorem panicPath_of_reach {cfg : Config} {s : State}
    (hs : sliceFrom cfg.ProxyList cfg.Entrance = none) (hr : Reach cfg s) :
    s.main.beforeDispatch = true ∧ parseCalls s.trace = [] ∧ sentURLs s.trace = [] ∧
      s.trace.count .sendQuit = 0 :=
  reach_induction
    (P := fun s => s.main.beforeDispatch = true ∧ parseCalls s.trace = [] ∧
      sentURLs s.trace = [] ∧ s.trace.count .sendQuit = 0)
    (by simp [init, Main.beforeDispatch, parseCalls, sentURLs])
    (fun _ _ _ hi ht => panicPath_trans hs hi ht) s hr

/-- With a start offset outside the list, every schedule ends in the panic. -/
theorem inev_panicked {cfg : Config} {s : State}
    (hs : sliceFrom cfg.ProxyList cfg.Entrance = none) (hr : Reach cfg s) :
    Inev cfg (fun s' => Reach cfg s' ∧ s'.main = .panicked) s := by
  refine inev_of_progress (Q := fun s => Reach cfg s) ?_ ?_ s hr
  · intro s a s' hr hs
    exact reach_step hr hs
  · intro s hr
    obtain ⟨hb, _, _, _⟩ := panicPath_of_reach hs hr
    obtain ⟨m, ps, c, tr⟩ := s
    cases m with
    | panicked => exact Or.inl ⟨hr, rfl⟩
    | startClean =>
      refine Or.inr ⟨.main, ?_⟩
      by_cases hcl : cfg.CleanProxies = true <;> simp [step, stepMain, hcl]
    | spawnLoop i =>
      refine Or.inr ⟨.main, ?_⟩
      by_cases hcl : i < cfg.Threads <;> simp [step, stepMain, hcl]
    | slice =>
      refine Or.inr ⟨.main, ?_⟩
      simp [step, stepMain, hs]
    | _ => simp [Main.beforeDispatch] at hb

theorem sliceFrom_outOfRange {l : List String} {e : Int}
    (he : ¬ (0 ≤ e ∧ e ≤ (l.length : Int))) : sliceFrom l e = none := by
  unfold sliceFrom
  rw [if_neg he]

/-- Without a worker the pool is empty in every reachable state. -/
theorem no_posts_of_reach {cfg : Config} {s : State} (hT : cfg.Threads ≤ 0)
    (hr : Reach cfg s) : s.posts = [] := by
  obtain ⟨_, h2, _⟩ := inv_of_reach hr
  obtain ⟨m, ps, c, tr⟩ := s
  have : ps.length = 0 := by
    cases m <;> simp only [postsShape] at h2 <;>
      first
        | omega
        | (subst h2; rfl)
  exact List.length_eq_zero.mp this


/-- Without a worker nothing is ever sent on `ProxyChannel`. -/
theorem no_send_of_reach {cfg : Config} {s : State} (hT : cfg.Threads ≤ 0)
    (hr : Reach cfg s) : sentURLs s.trace = [] := by
  refine reach_induction (P := fun s => sentURLs s.trace = []) (by simp [sentURLs, init])
    ?_ s hr
  intro s1 s2 hr1 h1 ht
  have hps := no_posts_of_reach hT hr1
  cases ht <;> simp_all [sentURLs]

/-- Without a worker and with a parseable item at or after an in-range start
offset, `main` never leaves the dispatch loop. -/
theorem never_past_dispatch {cfg : Config} {s : State} (hT : cfg.Threads ≤ 0)
    (he : 0 ≤ cfg.Entrance ∧ cfg.Entrance ≤ (cfg.ProxyList.length : Int))
    (hp : ∃ p ∈ cfg.ProxyList.drop cfg.Entrance.toNat, (cfg.parseItem p).isSome = true)
    (hr : Reach cfg s) : s.main.pastDispatch = false := by
  have hb := blockedInv_of_reach hT he hp hr
  cases hm : s.main <;> simp_all [blockedInv, Main.pastDispatch]

/-- An item at an index at or after a start offset `≥ 0` lies in the slice. -/
theorem item_in_slice {l : List String} {e : Int} {i : Nat} {p : String}
    (h0 : 0 ≤ e) (hi : e ≤ (i : Int)) (hp : l[i]? = some p) :
    (0 ≤ e ∧ e ≤ (l.length : Int)) ∧ p ∈ l.drop e.toNat := by
  obtain ⟨hlt, _⟩ := List.getElem?_eq_some.mp hp
  refine ⟨⟨h0, by omega⟩, ?_⟩
  have hget : (l.drop e.toNat)[i - e.toNat]? = some p := by
    rw [List.getElem?_drop]
    have : e.toNat + (i - e.toNat) = i := by omega
    rw [this]
    exact hp
  obtain ⟨hlt', heq⟩ := List.getElem?_eq_some.mp hget
  exact heq ▸ List.getElem_mem hlt'

/-- Without a worker and with a parseable item at or after an in-range start
offset, every schedule ends with `main` blocked sending the first parseable
item's endpoint and no action enabled. -/
theorem inev_blocked {cfg : Config} (hT : cfg.Threads ≤ 0)
    (he : 0 ≤ cfg.Entrance ∧ cfg.Entrance ≤ (cfg.ProxyList.length : Int))
    (hp : ∃ p ∈ cfg.ProxyList.drop cfg.Entrance.toNat, (cfg.parseItem p).isSome = true) :
    Inev cfg (fun s =>
      (∃ i u rest, s.main = .sending i u rest ∧
        ((cfg.ProxyList.drop cfg.Entrance.toNat).filterMap cfg.parseItem).head? = some u) ∧
      ∀ a, step cfg s a = none) init := by
  refine inev_of_progress (Q := fun s => Reach cfg s) ?_ ?_ init (reach_init cfg)
  · intro s a s' hr hs
    exact reach_step hr hs
  · intro s hr
    have hb := blockedInv_of_reach hT he hp hr
    have hps := no_posts_of_reach hT hr
    have hsent := no_send_of_reach hT hr
    obtain ⟨hc, _, _⟩ := inv_of_reach hr
    obtain ⟨_, h1, _, _, _⟩ := dispatchInv_of_reach (sliceFrom_inRange he) hr
    obtain ⟨m, ps, c, tr⟩ := s
    simp only at hps hsent hb hc h1
    subst hps
    cases m with
    | startClean =>
      refine Or.inr ⟨.main, ?_⟩
      by_cases hcl : cfg.CleanProxies = true <;> simp [step, stepMain, hcl]
    | spawnLoop i =>
      refine Or.inr ⟨.main, ?_⟩
      by_cases hcl : i < cfg.Threads <;> simp [step, stepMain, hcl]
    | slice =>
      refine Or.inr ⟨.main, ?_⟩
      simp [step, stepMain, sliceFrom_inRange he]
    | rangeLoop i rest =>
      refine Or.inr ⟨.main, ?_⟩
      cases rest with
      | nil => simp [step, stepMain]
      | cons p rest =>
        cases hq : cfg.urlParse ("http://" ++ p) <;> simp [step, stepMain, hq]
    | sending i u rest =>
      left
      refine ⟨⟨i, u, rest, rfl, ?_⟩, ?_⟩
      · rw [← h1, hsent]
        simp [pendingURLs]
      · intro a
        cases a with
        | main => simp [step, stepMain]
        | dispatch w => simp [step, stepDispatch]
        | postDone w ok => simp [step, stepPostDone]
        | forward w => simp [step, stepForward]
        | kill w => simp [step, stepKill]
        | quitClean => simp [step, stepQuitClean]
        | completed => simp [step, stepCompleted]
        | marshal ok =>
          by_cases hcl : cfg.CleanProxies = true
          · simp only [cleanShape, hcl, if_true] at hc
            obtain ⟨l, rfl⟩ := hc
            simp [step, stepMarshal]
          · simp only [cleanShape, hcl, if_false] at hc
            subst hc
            simp [step, stepMarshal]
        | write ok =>
          by_cases hcl : cfg.CleanProxies = true
          · simp only [cleanShape, hcl, if_true] at hc
            obtain ⟨l, rfl⟩ := hc
            simp [step, stepWrite]
          · simp only [cleanShape, hcl, if_false] at hc
            subst hc
            simp [step, stepWrite]
    | _ => simp [blockedInv] at hb

/-- With an in-range start offset every schedule brings `main` to the head of
the range loop with the whole slice ahead and nothing parsed or sent. -/
theorem inev_rangeLoop {cfg : Config}
    (he : 0 ≤ cfg.Entrance ∧ cfg.Entrance ≤ (cfg.ProxyList.length : Int)) :
    Inev cfg (fun s => s.main = .rangeLoop 0 (cfg.ProxyList.drop cfg.Entrance.toNat) ∧
      parseCalls s.trace = [] ∧ sentURLs s.trace = []) init := by
  refine inev_until
    (Q := fun s => Reach cfg s ∧ parseCalls s.trace = [] ∧ sentURLs s.trace = [] ∧
      (s.main.beforeDispatch = true ∨
        s.main = .rangeLoop 0 (cfg.ProxyList.drop cfg.Entrance.toNat)))
    ?_ init ⟨reach_init cfg, by simp [init, parseCalls], by simp [init, sentURLs],
      Or.inl rfl⟩
  intro s ⟨hr, hpc, hsu, hm⟩
  rcases hm with hb | hm
  · right
    have hpan := (dispatchInv_of_reach (sliceFrom_inRange he) hr).1
    constructor
    · obtain ⟨m, ps, c, tr⟩ := s
      cases m with
      | panicked => exact absurd rfl hpan
      | startClean =>
        refine ⟨.main, ?_⟩
        by_cases hcl : cfg.CleanProxies = true <;> simp [step, stepMain, hcl]
      | spawnLoop i =>
        refine ⟨.main, ?_⟩
        by_cases hcl : i < cfg.Threads <;> simp [step, stepMain, hcl]
      | slice =>
        refine ⟨.main, ?_⟩
        simp [step, stepMain, sliceFrom_inRange he]
      | _ => simp [Main.beforeDispatch] at hb
    · intro a s' hs
      refine ⟨reach_step hr hs, ?_⟩
      have ht := trans_of_step hs
      cases ht with
      | sliceOk hs' =>
        rw [sliceFrom_inRange he] at hs'
        simp only [Option.some.injEq] at hs'
        subst hs'
        exact ⟨hpc, hsu, Or.inr rfl⟩
      | slicePanic hs' => simp [sliceFrom_inRange he] at hs'
      | rangeEnd | parseErr _ | parseOk _ | killNext _ | killEnd _ | quitCleanOn _
      | quitCleanOff _ | dispatch _ _ | kill _ _ | quitClean | completed =>
        simp [Main.beforeDispatch] at hb
      | _ =>
        refine ⟨?_, ?_, Or.inl hb⟩
        · simpa [parseCalls] using hpc
        · simpa [sentURLs] using hsu
  · exact Or.inl ⟨hm, hpc, hsu⟩

/-- What the dispatch loop has done once `main` has left it, for an in-range
start offset: the sends are the parsed endpoints of the slice and the logged
parse errors are its failing items. -/
theorem dispatch_done {cfg : Config}
    (he : 0 ≤ cfg.Entrance ∧ cfg.Entrance ≤ (cfg.ProxyList.length : Int))
    {s : State} (hr : Reach cfg s) (hpd : s.main.pastDispatch = true) :
    sentURLs s.trace = (cfg.ProxyList.drop cfg.Entrance.toNat).filterMap cfg.parseItem ∧
    parseErrors s.trace =
      (cfg.ProxyList.drop cfg.Entrance.toNat).filter (fun p => (cfg.parseItem p).isNone) := by
  obtain ⟨_, h1, h2, _, _⟩ := dispatchInv_of_reach (sliceFrom_inRange he) hr
  have e1 : pendingURLs cfg (cfg.ProxyList.drop cfg.Entrance.toNat) s.main = [] := by
    cases hm : s.main <;> simp_all [Main.pastDispatch, pendingURLs]
  have e2 : pendingErrors cfg (cfg.ProxyList.drop cfg.Entrance.toNat) s.main = [] := by
    cases hm : s.main <;> simp_all [Main.pastDispatch, pendingErrors]
  rw [e1, List.append_nil] at h1
  rw [e2, List.append_nil] at h2
  exact ⟨h1, h2⟩

/-- C1, amended: for an in-range start offset and every `Threads`, the dispatch
loop sends only endpoints of items that parsed and logs a parse error only for
items that did not, never more of either than the slice holds, and once `main`
has left the loop it has made exactly K sends and skipped, with one logged
error each, exactly the M items that failed to parse, K + M being all items
from the offset on.  When at least one worker was spawned (`Threads ≥ 1`), or
when no item from the offset on parses (K = 0), every schedule (every network
call returning) brings `main` out of the loop with exactly those K sends and M
skips. -/
theorem dispatch_sends_parsed_skips_failed (cfg : Config)
    (he : 0 ≤ cfg.Entrance ∧ cfg.Entrance ≤ (cfg.ProxyList.length : Int))
    (s : State) (hr : Reach cfg s) :
    (sentURLs s.trace).length ≤
        ((cfg.ProxyList.drop cfg.Entrance.toNat).filterMap cfg.parseItem).length ∧
    (parseErrors s.trace).length ≤
        ((cfg.ProxyList.drop cfg.Entrance.toNat).filter
          (fun p => (cfg.parseItem p).isNone)).length ∧
    (∀ u ∈ sentURLs s.trace,
        ∃ p ∈ cfg.ProxyList.drop cfg.Entrance.toNat, cfg.parseItem p = some u) ∧
    (∀ p ∈ parseErrors s.trace,
        p ∈ cfg.ProxyList.drop cfg.Entrance.toNat ∧ cfg.parseItem p = none) ∧
    (s.main.pastDispatch = true →
      (sentURLs s.trace).length =
        ((cfg.ProxyList.drop cfg.Entrance.toNat).filterMap cfg.parseItem).length ∧
      parseErrors s.trace =
        (cfg.ProxyList.drop cfg.Entrance.toNat).filter (fun p => (cfg.parseItem p).isNone) ∧
      (sentURLs s.trace).length + (parseErrors s.trace).length =
        (cfg.ProxyList.drop cfg.Entrance.toNat).length) ∧
    (1 ≤ cfg.Threads ∨
        (cfg.ProxyList.drop cfg.Entrance.toNat).filterMap cfg.parseItem = [] →
      Inev cfg (fun s' => s'.main.pastDispatch = true ∧
        (sentURLs s'.trace).length =
          ((cfg.ProxyList.drop cfg.Entrance.toNat).filterMap cfg.parseItem).length ∧
        parseErrors s'.trace =
          (cfg.ProxyList.drop cfg.Entrance.toNat).filter
            (fun p => (cfg.parseItem p).isNone) ∧
        (sentURLs s'.trace).length + (parseErrors s'.trace).length =
          (cfg.ProxyList.drop cfg.Entrance.toNat).length) s) := by
  have hsum := filterMap_length_add cfg.parseItem (cfg.ProxyList.drop cfg.Entrance.toNat)
  have past : ∀ s', Reach cfg s' → s'.main.pastDispatch = true →
      (sentURLs s'.trace).length =
        ((cfg.ProxyList.drop cfg.Entrance.toNat).filterMap cfg.parseItem).length ∧
      parseErrors s'.trace =
        (cfg.ProxyList.drop cfg.Entrance.toNat).filter
          (fun p => (cfg.parseItem p).isNone) ∧
      (sentURLs s'.trace).length + (parseErrors s'.trace).length =
        (cfg.ProxyList.drop cfg.Entrance.toNat).length := by
    intro s' hr' hpd
    obtain ⟨g1, g2⟩ := dispatch_done he hr' hpd
    rw [g1, g2]
    exact ⟨rfl, rfl, hsum⟩
  obtain ⟨_, h1, h2, _, _⟩ := dispatchInv_of_reach (sliceFrom_inRange he) hr
  refine ⟨?_, ?_, ?_, ?_, past s hr, ?_⟩
  · rw [← h1]; simp
  · rw [← h2]; simp
  · intro u hu
    have : u ∈ (cfg.ProxyList.drop cfg.Entrance.toNat).filterMap cfg.parseItem := by
      rw [← h1]; exact List.mem_append_left _ hu
    simpa [List.mem_filterMap] using this
  · intro p hp
    have : p ∈ (cfg.ProxyList.drop cfg.Entrance.toNat).filter
        (fun p => (cfg.parseItem p).isNone) := by
      rw [← h2]; exact List.mem_append_left _ hp
    simpa [List.mem_filter] using this
  · intro hk
    refine inev_mono ?_ (inev_done_of he hk hr)
    intro s' hs'
    have hpd : s'.main.pastDispatch = true := by simp [hs'.2, Main.pastDispatch]
    exact ⟨hpd, past s' hs'.1 hpd⟩

/-- C1, refuted as stated: with `Threads = 0`, the list `["a:1"]` and offset 0,
the slice holds K = 1 parseable item, yet no reachable state has a send on
`ProxyChannel`, and `main` never leaves the dispatch loop. -/
theorem no_worker_no_send :
    (0 ≤ configNoWorker.Entrance ∧
      configNoWorker.Entrance ≤ (configNoWorker.ProxyList.length : Int)) ∧
    ((configNoWorker.ProxyList.drop configNoWorker.Entrance.toNat).filterMap
      configNoWorker.parseItem).length = 1 ∧
    ∀ s, Reach configNoWorker s →
      (sentURLs s.trace).length = 0 ∧ s.main.pastDispatch = false :=
  ⟨by decide, by decide, fun _ hr =>
    ⟨by rw [no_send_of_reach (by decide) hr]; rfl,
      never_past_dispatch (by decide) (by decide) ⟨"a:1", by decide, by decide⟩ hr⟩⟩

/-- C2, amended: for a start offset `e` with `0 ≤ e ≤ len(ProxyList)` and every
`Threads`, what `main` has sent on `ProxyChannel` is at every moment an initial
part of the parsed endpoints of the parseable items at indices `≥ e`, in source
order, and all of them once `main` has left the loop; every call of
`url.Parse` is on the item at an index `e + i ≥ e`, and every endpoint sent
comes from such a call.  When at least one worker was spawned (`Threads ≥ 1`),
or when no item at an index `≥ e` parses, every schedule (every network call
returning) brings `main` out of the loop with exactly those endpoints sent. -/
theorem dispatch_in_source_order_from_offset (cfg : Config)
    (he : 0 ≤ cfg.Entrance ∧ cfg.Entrance ≤ (cfg.ProxyList.length : Int))
    (s : State) (hr : Reach cfg s) :
    (sentURLs s.trace <+:
        (cfg.ProxyList.drop cfg.Entrance.toNat).filterMap cfg.parseItem) ∧
    (s.main.pastDispatch = true →
      sentURLs s.trace = (cfg.ProxyList.drop cfg.Entrance.toNat).filterMap cfg.parseItem) ∧
    (∀ i p, (i, p) ∈ parseCalls s.trace →
      0 ≤ i ∧ cfg.ProxyList[(cfg.Entrance + i).toNat]? = some p) ∧
    (sentURLs s.trace <+:
        (parseCalls s.trace).filterMap (fun ip => cfg.parseItem ip.2)) ∧
    (1 ≤ cfg.Threads ∨
        (cfg.ProxyList.drop cfg.Entrance.toNat).filterMap cfg.parseItem = [] →
      Inev cfg (fun s' => s'.main.pastDispatch = true ∧
        sentURLs s'.trace =
          (cfg.ProxyList.drop cfg.Entrance.toNat).filterMap cfg.parseItem) s) := by
  obtain ⟨_, h1, _, h3, h4⟩ := dispatchInv_of_reach (sliceFrom_inRange he) hr
  refine ⟨⟨_, h1⟩, fun hpd => (dispatch_done he hr hpd).1, ?_, ⟨_, h4⟩, ?_⟩
  · intro i p hip
    have hmem : (i, p) ∈ indexFrom 0 (cfg.ProxyList.drop cfg.Entrance.toNat) := by
      rw [← h3]; exact List.mem_append_left _ hip
    obtain ⟨h0, hget⟩ := mem_indexFrom hmem
    refine ⟨h0, ?_⟩
    rw [List.getElem?_drop] at hget
    have : (cfg.Entrance + i).toNat = cfg.Entrance.toNat + (i - 0).toNat := by omega
    rw [this]
    exact hget
  · intro hk
    refine inev_mono ?_ (inev_done_of he hk hr)
    intro s' hs'
    have hpd : s'.main.pastDispatch = true := by simp [hs'.2, Main.pastDispatch]
    exact ⟨hpd, (dispatch_done he hs'.1 hpd).1⟩

/-- C2, refuted as stated: with `Threads = 0`, the list `["a:1", "b:2"]` and
offset 1, the parsed endpoints of the items at indices `≥ 1` are the one of
`"b:2"`, yet in every reachable state the sequence sent on `ProxyChannel` is
empty. -/
theorem no_worker_sends_nothing :
    (0 ≤ configNoWorkerOffset.Entrance ∧
      configNoWorkerOffset.Entrance ≤ (configNoWorkerOffset.ProxyList.length : Int)) ∧
    (configNoWorkerOffset.ProxyList.drop configNoWorkerOffset.Entrance.toNat).filterMap
      configNoWorkerOffset.parseItem = [⟨"b:2"⟩] ∧
    ∀ s, Reach configNoWorkerOffset s → sentURLs s.trace = [] :=
  ⟨by decide, by decide, fun _ hr => no_send_of_reach (by decide) hr⟩

/-- C10, amended: with `Threads ≤ 0` and a parseable item at an index at or
after the start offset, whatever the offset, no reachable state has `main` in
Draining or Done, a worker, or a send on `ProxyChannel`, whether or not
collection is enabled.  When the offset is `≥ 0` every schedule ends with
`main` blocked sending the first parseable item's endpoint and no action
enabled; when it is negative the slice expression panics instead, and every
schedule ends there with nothing parsed and no action enabled. -/
theorem no_worker_blocks_at_first_send (cfg : Config) (hT : cfg.Threads ≤ 0)
    (hp : ∃ i : Nat, cfg.Entrance ≤ (i : Int) ∧
      ∃ p, cfg.ProxyList[i]? = some p ∧ (cfg.parseItem p).isSome = true) :
    (∀ s, Reach cfg s →
      s.main.pastDispatch = false ∧ sentURLs s.trace = [] ∧ s.posts = []) ∧
    (0 ≤ cfg.Entrance → Inev cfg (fun s =>
      (∃ i u rest, s.main = .sending i u rest ∧
        ((cfg.ProxyList.drop cfg.Entrance.toNat).filterMap cfg.parseItem).head? = some u) ∧
      ∀ a, step cfg s a = none) init) ∧
    (cfg.Entrance < 0 → Inev cfg (fun s =>
      s.main = .panicked ∧ parseCalls s.trace = [] ∧ ∀ a, step cfg s a = none) init) := by
  obtain ⟨i, hi, p, hget, hsome⟩ := hp
  refine ⟨?_, ?_, ?_⟩
  · intro s hr
    refine ⟨?_, no_send_of_reach hT hr, no_posts_of_reach hT hr⟩
    by_cases h0 : 0 ≤ cfg.Entrance
    · obtain ⟨he, hmem⟩ := item_in_slice h0 hi hget
      exact never_past_dispatch hT he ⟨p, hmem, hsome⟩ hr
    · have hs : sliceFrom cfg.ProxyList cfg.Entrance = none :=
        sliceFrom_outOfRange (fun h => h0 h.1)
      obtain ⟨hb, _, _, _⟩ := panicPath_of_reach hs hr
      cases hm : s.main <;> simp_all [Main.beforeDispatch, Main.pastDispatch]
  · intro h0
    obtain ⟨he, hmem⟩ := item_in_slice h0 hi hget
    exact inev_blocked hT he ⟨p, hmem, hsome⟩
  · intro hneg
    have hs : sliceFrom cfg.ProxyList cfg.Entrance = none :=
      sliceFrom_outOfRange (fun h => by omega)
    refine inev_mono ?_ (inev_panicked hs (reach_init cfg))
    intro s ⟨hr, hm⟩
    exact ⟨hm, (panicPath_of_reach hs hr).2.1, panicked_stuck cfg s hm⟩

/-- C10, refuted as stated: with `Threads = 0`, the list `["a:1"]` and offset
`-1`, the item at index 0 is parseable and at or after the offset, yet `main`
is in no reachable state blocked in a send on `ProxyChannel`: every schedule
ends in the panic of the slice expression. -/
theorem negative_offset_panics_before_send :
    configNegative.Threads ≤ 0 ∧
    (∃ i : Nat, configNegative.Entrance ≤ (i : Int) ∧
      ∃ p, configNegative.ProxyList[i]? = some p ∧
        (configNegative.parseItem p).isSome = true) ∧
    (∀ s, Reach configNegative s → ∀ i u rest, s.main ≠ .sending i u rest) ∧
    Inev configNegative (fun s => s.main = .panicked ∧
      ∀ a, step configNegative s a = none) init := by
  refine ⟨by decide, ⟨0, by decide, "a:1", by decide, by decide⟩, ?_, ?_⟩
  · intro s hr i u rest hm
    have hb := (@panicPath_of_reach configNegative s (by decide) hr).1
    simp [hm, Main.beforeDispatch] at hb
  · refine inev_mono ?_ (@inev_panicked configNegative init (by decide) (reach_init _))
    intro s ⟨_, hm⟩
    exact ⟨hm, panicked_stuck _ s hm⟩

theorem reach_runFrom {cfg : Config} {as : List Action}
    (h : (run cfg init as).isSome = true) : Reach cfg (runFrom cfg as) := by
  refine ⟨as, ?_⟩
  unfold runFrom
  cases hr : run cfg init as with
  | none => simp [hr] at h
  | some s => rfl

/-- The amended C1 at a complete run with one worker: two sends, one skip. -/
theorem dispatch_sends_parsed_skips_failed_witness :
    (0 ≤ configSkip.Entrance ∧ configSkip.Entrance ≤ (configSkip.ProxyList.length : Int)) ∧
    Reach configSkip (runFrom configSkip scheduleSkip) ∧
    (runFrom configSkip scheduleSkip).main.pastDispatch = true ∧
    ((sentURLs (runFrom configSkip scheduleSkip).trace).length = 2 ∧
      parseErrors (runFrom configSkip scheduleSkip).trace = ["bad proxy"] ∧
      (sentURLs (runFrom configSkip scheduleSkip).trace).length +
        (parseErrors (runFrom configSkip scheduleSkip).trace).length = 3) :=
  ⟨by decide, reach_runFrom (by decide), by decide,
    (dispatch_sends_parsed_skips_failed configSkip (by decide)
      (runFrom configSkip scheduleSkip) (reach_runFrom (by decide))).2.2.2.2.1 (by decide)⟩

/-- The amended C2 at the run of the claim: offset 2 on `["a:1", "bad", "c:3"]`
with one worker sends only the endpoint of `"c:3"`. -/
theorem dispatch_in_source_order_from_offset_witness :
    (0 ≤ configOffset.Entrance ∧
      configOffset.Entrance ≤ (configOffset.ProxyList.length : Int)) ∧
    Reach configOffset (runFrom configOffset scheduleOffset) ∧
    (runFrom configOffset scheduleOffset).main.pastDispatch = true ∧
    sentURLs (runFrom configOffset scheduleOffset).trace = [⟨"c:3"⟩] :=
  ⟨by decide, reach_runFrom (by decide), by decide,
    (dispatch_in_source_order_from_offset configOffset (by decide)
      (runFrom configOffset scheduleOffset) (reach_runFrom (by decide))).2.1 (by decide)⟩

/-- The amended C10 at no worker, one parseable item and offset 0. -/
theorem no_worker_blocks_at_first_send_witness :
    configNoWorker.Threads ≤ 0 ∧
    (∃ i : Nat, configNoWorker.Entrance ≤ (i : Int) ∧
      ∃ p, configNoWorker.ProxyList[i]? = some p ∧
        (configNoWorker.parseItem p).isSome = true) ∧
    0 ≤ configNoWorker.Entrance ∧
    Inev configNoWorker (fun s =>
      (∃ i u rest, s.main = .sending i u rest ∧
        ((configNoWorker.ProxyList.drop configNoWorker.Entrance.toNat).filterMap
          configNoWorker.parseItem).head? = some u) ∧
      ∀ a, step configNoWorker s a = none) init :=
  ⟨by decide, ⟨0, by decide, "a:1", by decide, by decide⟩, by decide,
    (no_worker_blocks_at_first_send configNoWorker (by decide)
      ⟨0, by decide, "a:1", by decide, by decide⟩).2.1 (by decide)⟩

/-- C3, refuted as stated: with one item and `Entrance = 2`, or with
`Entrance = -1`, the slice expression is not defined; the run with
`Entrance = 2` ends in the panic, after the worker was spawned and before any
item is parsed or sent. -/
theorem slice_out_of_range_panics :
    sliceFrom ["a:1"] 2 = none ∧ sliceFrom ["a:1"] (-1) = none ∧
    (run configOutOfRange init [.main, .main, .main, .main]).map
        (fun s => (s.main, s.posts, parseCalls s.trace, sentURLs s.trace)) =
      some (.panicked, [.select], [], []) := by
  decide

/-- C3, amended: `ProxyList[Entrance:]` is defined exactly when
`0 ≤ Entrance ≤ len(ProxyList)`.  Then it is the list without its first
`Entrance` items, `main` panics in no reachable state, and every schedule
brings `main` to the head of the range loop with that whole list ahead and
nothing parsed or sent yet.  Otherwise the slice expression panics: in no
reachable state has `main` parsed or sent an item or got past the slice
expression, and every schedule ends in the panic, with the `max(Threads, 0)`
workers spawned and waiting in their `select`, nothing parsed or sent, and no
action enabled. -/
theorem slice_defined_iff_in_range (cfg : Config) :
    (0 ≤ cfg.Entrance ∧ cfg.Entrance ≤ (cfg.ProxyList.length : Int) →
      sliceFrom cfg.ProxyList cfg.Entrance = some (cfg.ProxyList.drop cfg.Entrance.toNat) ∧
      (∀ s, Reach cfg s → s.main ≠ .panicked) ∧
      Inev cfg (fun s =>
        s.main = .rangeLoop 0 (cfg.ProxyList.drop cfg.Entrance.toNat) ∧
        parseCalls s.trace = [] ∧ sentURLs s.trace = []) init) ∧
    (¬ (0 ≤ cfg.Entrance ∧ cfg.Entrance ≤ (cfg.ProxyList.length : Int)) →
      sliceFrom cfg.ProxyList cfg.Entrance = none ∧
      (∀ s, Reach cfg s → s.main.beforeDispatch = true ∧
        parseCalls s.trace = [] ∧ sentURLs s.trace = []) ∧
      Inev cfg (fun s => s.main = .panicked ∧
        (s.posts.length : Int) = max cfg.Threads 0 ∧ (∀ p ∈ s.posts, p = .select) ∧
        parseCalls s.trace = [] ∧ sentURLs s.trace = [] ∧
        ∀ a, step cfg s a = none) init) := by
  constructor
  · intro he
    exact ⟨sliceFrom_inRange he,
      fun s hr => (dispatchInv_of_reach (sliceFrom_inRange he) hr).1, inev_rangeLoop he⟩
  · intro he
    have hs := sliceFrom_outOfRange he
    refine ⟨hs, ?_, ?_⟩
    · intro s hr
      obtain ⟨hb, hpc, hsu, _⟩ := panicPath_of_reach hs hr
      exact ⟨hb, hpc, hsu⟩
    · refine inev_mono ?_ (inev_panicked hs (reach_init cfg))
      intro s ⟨hr, hm⟩
      obtain ⟨_, hpc, hsu, _⟩ := panicPath_of_reach hs hr
      obtain ⟨_, hps, _⟩ := inv_of_reach hr
      rw [hm] at hps
      simp only [postsShape] at hps
      exact ⟨hm, hps.1, idleInv_of_reach hr (by simp [hm, Main.beforeDispatch]), hpc, hsu,
        panicked_stuck cfg s hm⟩

/-- The amended C3 at offset 2 into three items and at offset 2 into one. -/
theorem slice_defined_iff_in_range_witness :
    (0 ≤ configOffset.Entrance ∧
      configOffset.Entrance ≤ (configOffset.ProxyList.length : Int)) ∧
    sliceFrom configOffset.ProxyList configOffset.Entrance = some ["c:3"] ∧
    ¬ (0 ≤ configOutOfRange.Entrance ∧
      configOutOfRange.Entrance ≤ (configOutOfRange.ProxyList.length : Int)) ∧
    sliceFrom configOutOfRange.ProxyList configOutOfRange.Entrance = none :=
  ⟨by decide,
    ((slice_defined_iff_in_range configOffset).1 (by decide)).1,
    by decide,
    ((slice_defined_iff_in_range configOutOfRange).2 (by decide)).1⟩

/-! ## Claims about shutdown -/


theorem noClean_trans {cfg : Config} {s s' : State} (hc : cfg.CleanProxies = false)
    (hi : s.clean = none ∧ s.trace.filter Event.isClean = []) (h : Trans cfg s s') :
    s'.clean = none ∧ s'.trace.filter Event.isClean = [] := by
  obtain ⟨h1, h2⟩ := hi
  cases h <;> simp_all [Event.isClean, List.filter_cons]

/-- C5: with `CleanProxies` false, in every reachable state `CleanThread` does
not exist, no worker is at the send on `CleanChannel`, `main` is at neither
the send on `QuitCleanChannel` nor the receive on `CompletedChannel`, and the
trace holds no start of `CleanThread`, no send on `CleanChannel`,
`QuitCleanChannel` or `CompletedChannel`, no receive on `CompletedChannel`,
and no marshal or write of the output file. -/
theorem collection_disabled_no_collector (cfg : Config) (hc : cfg.CleanProxies = false)
    (s : State) (hr : Reach cfg s) :
    s.clean = none ∧
    (∀ p ∈ s.posts, ∀ u, p ≠ .forwarding u) ∧
    s.main ≠ .sendingQuitClean ∧ s.main ≠ .waitCompleted ∧
    (∀ e ∈ s.trace, e ≠ .spawnClean ∧ (∀ w u, e ≠ .sendClean w u) ∧ e ≠ .sendQuitClean ∧
      e ≠ .sendCompleted ∧ e ≠ .recvCompleted ∧
      (∀ l ok, e ≠ .marshal l ok) ∧ (∀ l ok, e ≠ .writeFile l ok)) := by
  have hn : s.clean = none ∧ s.trace.filter Event.isClean = [] :=
    reach_induction (P := fun s => s.clean = none ∧ s.trace.filter Event.isClean = [])
      (by simp [init]) (fun _ _ _ hi ht => noClean_trans hc hi ht) s hr
  obtain ⟨h1, h2, h3⟩ := inv_of_reach hr
  refine ⟨hn.1, ?_, ?_, ?_, ?_⟩
  · intro p hp u hpu
    subst hpu
    have := h3 hc
    rw [List.countP_eq_zero] at this
    exact this _ hp rfl
  · intro hm
    simp [cleanShape, hm, hc] at h1
  · intro hm
    simp [cleanShape, hm, hc] at h1
  · intro e he
    have := (List.filter_eq_nil_iff.mp hn.2) e he
    refine ⟨?_, ?_, ?_, ?_, ?_, ?_, ?_⟩ <;>
      (try intro a b) <;> intro heq <;> subst heq <;> simp [Event.isClean] at this

theorem collection_disabled_no_collector_witness :
    configPlain.CleanProxies = false ∧
    Reach configPlain (runFrom configPlain schedulePlain) ∧
    (runFrom configPlain schedulePlain).main = .done ∧
    (runFrom configPlain schedulePlain).clean = none :=
  ⟨by decide, reach_runFrom (by decide), by decide,
    (collection_disabled_no_collector configPlain (by decide) _
      (reach_runFrom (by decide))).1⟩

/-- C6: from every reachable state in which `main` has left the dispatch loop
(all `N = max(Threads, 0)` workers spawned, the quit tokens being sent), and
from every reachable state at all when a worker exists and the start offset is
in range, every schedule comes to the state where `main` has returned, all `N`
`PostThread`s have returned, and `CleanThread`, if started, has returned. -/
theorem workers_terminate_and_drain_returns (cfg : Config) (s : State) (hr : Reach cfg s)
    (hl : s.main.pastDispatch = true ∨
      (1 ≤ cfg.Threads ∧ 0 ≤ cfg.Entrance ∧ cfg.Entrance ≤ (cfg.ProxyList.length : Int))) :
    Inev cfg (fun s' => s'.main = .done ∧ (s'.posts.length : Int) = max cfg.Threads 0 ∧
      (∀ p ∈ s'.posts, p = .returned) ∧
      (s'.clean = none ∨ s'.clean = some .returned)) s := by
  have hlive : Live cfg s := by
    rcases hl with h | ⟨hT, he⟩
    · exact Or.inl h
    · exact live_of_threads hT he hr
  refine inev_mono ?_ (inev_done hr hlive)
  intro s' ⟨hr', hd⟩
  obtain ⟨h1, h2, _⟩ := inv_of_reach hr'
  rw [hd] at h1 h2
  simp only [postsShape] at h2
  refine ⟨hd, h2.1, ?_, ?_⟩
  · intro p hp
    have := (List.countP_eq_length.mp h2.2) p hp
    cases p <;> simp_all [PostThread.isReturned]
  · simp only [cleanShape] at h1
    split at h1
    · exact Or.inr h1
    · exact Or.inl h1

theorem workers_terminate_and_drain_returns_witness :
    Reach configTwo (runFrom configTwo scheduleDraining) ∧
    (runFrom configTwo scheduleDraining).main = .killing 0 ∧
    (runFrom configTwo scheduleDraining).posts =
      [.forwarding ⟨"a:1"⟩, .posting ⟨"b:2"⟩] ∧
    Inev configTwo (fun s' => s'.main = .done ∧
      (s'.posts.length : Int) = max configTwo.Threads 0 ∧
      (∀ p ∈ s'.posts, p = .returned) ∧
      (s'.clean = none ∨ s'.clean = some .returned)) (runFrom configTwo scheduleDraining) :=
  ⟨reach_runFrom (by decide), by decide, by decide,
    workers_terminate_and_drain_returns configTwo _ (reach_runFrom (by decide))
      (Or.inl (by decide))⟩

theorem get_set_of_get {α : Type} {l : List α} {w' w : Nat} {x y : α}
    (h : l[w']? = some y) : (l.set w' x)[w]? = if w' = w then some x else l[w]? := by
  obtain ⟨hlt, _⟩ := List.getElem?_eq_some.mp h
  rw [List.getElem?_set]
  simp [hlt]

theorem get_append_select {ps : List PostThread} {w : Nat} :
    ((ps ++ [PostThread.select])[w]? = some PostThread.returned) ↔ ps[w]? = some PostThread.returned := by
  rw [List.getElem?_append]
  split
  · rfl
  · rename_i hlt
    have hn : ps[w]? = none := List.getElem?_eq_none (by omega)
    rw [hn]
    cases hk : w - ps.length with
    | zero => simp
    | succ k => simp

theorem quitInv_trans {cfg : Config} {s s' : State} (hi : quitInv s) (h : Trans cfg s s') :
    quitInv s' := by
  obtain ⟨h1, h2, h3⟩ := hi
  -- a worker that moves between two places other than `returned`
  have move : ∀ (ps : List PostThread) (w' : Nat) (x y : PostThread) (tr tr' : List Event),
      ps[w']? = some y → y ≠ .returned → x ≠ .returned →
      quitInv ⟨s.main, ps, s.clean, tr⟩ →
      tr'.count .spawnPost = 0 → tr'.count .sendQuit = 0 →
      (∀ w, tr'.count (.recvQuit w) = 0) →
      ∀ m c, quitInv ⟨m, ps.set w' x, c, tr ++ tr'⟩ := by
    intro ps w' x y tr tr' hw hy hx ⟨g1, g2, g3⟩ e1 e2 e3 m c
    have hr := countP_set_get PostThread.isReturned ps w' x y hw
    have hxr : x.isReturned = false := by cases x <;> simp_all [PostThread.isReturned]
    have hyr : y.isReturned = false := by cases y <;> simp_all [PostThread.isReturned]
    simp only [hxr, hyr] at hr
    refine ⟨?_, ?_, ?_⟩
    · simpa [List.count_append, e1] using g1
    · simp only [List.count_append, e2] at g2 ⊢
      omega
    · intro w
      have := g3 w
      simp only [List.count_append, e3, get_set_of_get hw] at this ⊢
      by_cases hww : w' = w
      · subst hww
        simp only [hw, if_true] at this ⊢
        simpa [hx, hy] using this
      · simpa [hww] using this
  cases h with
  | spawn hlt =>
    refine ⟨?_, ?_, ?_⟩
    · simpa [List.count_append] using h1
    · simpa [List.count_append, PostThread.isReturned] using h2
    · intro w
      have := h3 w
      simp only [get_append_select]
      simpa [List.count_append] using this
  | dispatch w' hw =>
    exact move _ w' _ _ _ _ hw (by simp) (by simp) ⟨h1, h2, h3⟩ (by simp) (by simp)
      (by simp) _ _
  | postOkOn w' hm hw hc =>
    exact move _ w' _ _ _ _ hw (by simp) (by simp) ⟨h1, h2, h3⟩ (by simp) (by simp)
      (by simp) _ _
  | postOkOff w' hm hw hc =>
    exact move _ w' _ _ _ _ hw (by simp) (by simp) ⟨h1, h2, h3⟩ (by simp) (by simp)
      (by simp) _ _
  | postFail w' hm hw =>
    exact move _ w' _ _ _ _ hw (by simp) (by simp) ⟨h1, h2, h3⟩ (by simp) (by simp)
      (by simp) _ _
  | forward w' hm hw =>
    exact move _ w' _ _ _ _ hw (by simp) (by simp) ⟨h1, h2, h3⟩ (by simp) (by simp)
      (by simp) _ _
  | kill w' hw =>
    have hr := countP_set_get PostThread.isReturned _ w' .returned _ hw
    simp only [PostThread.isReturned] at hr
    refine ⟨?_, ?_, ?_⟩
    · simpa [List.count_append] using h1
    · simp only [List.count_append] at h2 ⊢
      simp at hr ⊢
      omega
    · intro w
      have := h3 w
      simp only [get_set_of_get hw]
      by_cases hww : w' = w
      · subst hww
        simp only [hw] at this
        simpa [List.count_append] using this
      · have hne : w ≠ w' := fun h => hww h.symm
        simpa [List.count_append, hww, hne] using this
  | _ =>
    refine ⟨?_, ?_, ?_⟩
    · simpa [List.count_append] using h1
    · simpa [List.count_append] using h2
    · intro w
      simpa [List.count_append] using h3 w

theorem quitInv_of_reach {cfg : Config} {s : State} (hr : Reach cfg s) : quitInv s :=
  reach_induction (P := quitInv) (by simp [quitInv, init])
    (fun _ _ _ hi ht => quitInv_trans hi ht) s hr

theorem quit_counts {cfg : Config} {s : State} (hr : Reach cfg s) :
    s.trace.count .sendQuit ≤ s.trace.count .spawnPost ∧
    (s.trace.count .spawnPost : Int) ≤ max cfg.Threads 0 ∧
    (s.main.pastSpawn = true → (s.trace.count .spawnPost : Int) = max cfg.Threads 0) ∧
    (s.main.pastKill = true →
      (s.trace.count .sendQuit : Int) = max cfg.Threads 0 ∧
      s.trace.count .sendQuit = s.trace.count .spawnPost) := by
  obtain ⟨h1, h2, h3⟩ := quitInv_of_reach hr
  obtain ⟨_, hp, _⟩ := inv_of_reach hr
  have hle := List.countP_le_length PostThread.isReturned (l := s.posts)
  rw [h1, h2]
  refine ⟨hle, ?_, ?_, ?_⟩
  · cases hm : s.main <;> simp only [hm, postsShape] at hp <;> first | omega | simp [hp]
  · intro hps
    cases hm : s.main <;> simp only [hm, postsShape, Main.pastSpawn] at hp hps <;>
      first | omega | simp at hps
  · intro hpk
    cases hm : s.main <;> simp only [hm, postsShape, Main.pastKill] at hp hpk <;>
      first | omega | simp at hpk

/-- C7, amended: for every value of `Threads`, in every reachable state the
quit tokens sent are no more than the workers spawned, which are no more than
`max(Threads, 0)`; once `main` has left the spawn loop it has spawned exactly
`max(Threads, 0)` workers, and once it has left the kill loop it has sent
exactly `max(Threads, 0)` quit tokens, as many as it spawned workers.  With
`Threads ≤ 0` both numbers are 0 throughout.  With `Threads ≥ 1` and
`0 ≤ Entrance ≤ len(ProxyList)` every schedule (every network call returning)
brings `main` out of the kill loop, with `Threads` workers spawned and
`Threads` tokens sent; with a start
offset outside the list no quit token is ever sent.  Each worker has taken at
most one quit token, and has taken one exactly when it has returned. -/
theorem spawned_workers_equal_quit_tokens (cfg : Config) (s : State) (hr : Reach cfg s) :
    s.trace.count .sendQuit ≤ s.trace.count .spawnPost ∧
    (s.trace.count .spawnPost : Int) ≤ max cfg.Threads 0 ∧
    (s.main.pastSpawn = true → (s.trace.count .spawnPost : Int) = max cfg.Threads 0) ∧
    (s.main.pastKill = true →
      (s.trace.count .sendQuit : Int) = max cfg.Threads 0 ∧
      s.trace.count .sendQuit = s.trace.count .spawnPost) ∧
    (cfg.Threads ≤ 0 → s.trace.count .spawnPost = 0 ∧ s.trace.count .sendQuit = 0) ∧
    (1 ≤ cfg.Threads → 0 ≤ cfg.Entrance ∧ cfg.Entrance ≤ (cfg.ProxyList.length : Int) →
      Inev cfg (fun s' => s'.main.pastKill = true ∧
        (s'.trace.count .spawnPost : Int) = cfg.Threads ∧
        (s'.trace.count .sendQuit : Int) = cfg.Threads) s) ∧
    (¬ (0 ≤ cfg.Entrance ∧ cfg.Entrance ≤ (cfg.ProxyList.length : Int)) →
      s.trace.count .sendQuit = 0) ∧
    (∀ w : Nat, s.trace.count (.recvQuit w) ≤ 1 ∧
      (s.trace.count (.recvQuit w) = 1 ↔ s.posts[w]? = some .returned)) := by
  obtain ⟨c1, c2, c3, c4⟩ := quit_counts hr
  obtain ⟨_, _, h3⟩ := quitInv_of_reach hr
  refine ⟨c1, c2, c3, c4, ?_, ?_, ?_, ?_⟩
  · intro hT
    omega
  · intro hT he
    refine inev_mono ?_ (inev_done hr (live_of_threads hT he hr))
    intro s' ⟨hr', hd⟩
    have hpk : s'.main.pastKill = true := by simp [hd, Main.pastKill]
    obtain ⟨g1, g2⟩ := (quit_counts hr').2.2.2 hpk
    refine ⟨hpk, ?_, ?_⟩ <;> omega
  · intro he
    exact (panicPath_of_reach (sliceFrom_outOfRange he) hr).2.2.2
  · intro w
    rw [h3 w]
    by_cases hw : s.posts[w]? = some .returned <;> simp [hw]

/-- The amended C7 at a complete run with two workers. -/
theorem spawned_workers_equal_quit_tokens_witness :
    Reach configTwo (runFrom configTwo scheduleTwo) ∧
    (runFrom configTwo scheduleTwo).main.pastKill = true ∧
    ((runFrom configTwo scheduleTwo).trace.count .sendQuit : Int) = 2 ∧
    (runFrom configTwo scheduleTwo).trace.count .sendQuit =
      (runFrom configTwo scheduleTwo).trace.count .spawnPost :=
  ⟨reach_runFrom (by decide), by decide,
    (spawned_workers_equal_quit_tokens configTwo _ (reach_runFrom (by decide))).2.2.2.1
      (by decide)⟩

/-- C7, refuted as stated: with `Threads = 1`, the list `["a:1"]` and
`Entrance = 2`, `max(Threads, 0)` is 1, yet no reachable state has a quit
token sent, and every schedule ends in the panic of the slice expression with
one worker spawned, no token sent and no action enabled. -/
theorem panic_leaves_worker_without_token :
    max configOutOfRange.Threads 0 = 1 ∧
    (∀ s, Reach configOutOfRange s → s.trace.count .sendQuit = 0) ∧
    Inev configOutOfRange (fun s => s.main = .panicked ∧
      s.trace.count .spawnPost = 1 ∧ s.trace.count .sendQuit = 0 ∧
      ∀ a, step configOutOfRange s a = none) init := by
  have hs : sliceFrom configOutOfRange.ProxyList configOutOfRange.Entrance = none := by
    decide
  refine ⟨by decide, fun s hr => (panicPath_of_reach hs hr).2.2.2, ?_⟩
  refine inev_mono ?_ (inev_panicked hs (reach_init _))
  intro s ⟨hr, hm⟩
  obtain ⟨q1, _, _⟩ := quitInv_of_reach hr
  obtain ⟨_, hps, _⟩ := inv_of_reach hr
  rw [hm] at hps
  simp only [postsShape] at hps
  have hT : max configOutOfRange.Threads 0 = 1 := by decide
  refine ⟨hm, ?_, (panicPath_of_reach hs hr).2.2.2, panicked_stuck _ s hm⟩
  rw [q1]
  have := hps.1
  omega

/-! ## Claims about the collector -/


theorem forwardingURLs_set (l : List PostThread) (w : Nat) (x y : PostThread) (h : l[w]? = some y) :
    List.Perm (forwardingURLs [x] ++ forwardingURLs l)
      (forwardingURLs [y] ++ forwardingURLs (l.set w x)) := by
  induction l generalizing w with
  | nil => simp at h
  | cons a l ih =>
    cases w with
    | zero =>
      simp only [List.getElem?_cons_zero, Option.some.injEq] at h
      subst h
      simp only [List.set_cons_zero]
      cases a <;> cases x <;> simp [forwardingURLs, List.Perm.swap]
    | succ w =>
      simp only [List.getElem?_cons_succ] at h
      have := ih w h
      simp only [List.set_cons_succ]
      cases a with
      | forwarding v =>
        simp only [forwardingURLs]
        have e1 : List.Perm (forwardingURLs [x] ++ v :: forwardingURLs l)
            (v :: (forwardingURLs [x] ++ forwardingURLs l)) := List.perm_middle
        have e2 : List.Perm (forwardingURLs [y] ++ v :: forwardingURLs (l.set w x))
            (v :: (forwardingURLs [y] ++ forwardingURLs (l.set w x))) := List.perm_middle
        exact e1.trans ((this.cons v).trans e2.symm)
      | _ => simpa [forwardingURLs] using this

theorem forwardingURLs_append_select (l : List PostThread) :
    forwardingURLs (l ++ [.select]) = forwardingURLs l := by
  induction l with
  | nil => rfl
  | cons a l ih => cases a <;> simp [forwardingURLs, ih]

theorem forwardingURLs_of_returned (l : List PostThread)
    (h : l.countP PostThread.isReturned = l.length) : forwardingURLs l = [] := by
  rw [List.countP_eq_length] at h
  induction l with
  | nil => rfl
  | cons a l ih =>
    have ha := h a (List.mem_cons_self _ _)
    cases a <;> simp [PostThread.isReturned] at ha
    simp only [forwardingURLs]
    exact ih (fun b hb => h b (List.mem_cons_of_mem _ hb))


theorem waiting_of_saving {cfg : Config} {m : Main} {c : CleanThread}
    (h : cleanShape cfg m (some c)) (hc : c.held = none ∨ ∃ l, c = .marshal l ∨ c = .write l)
    (hm : m.exited = false) : m = .waitCompleted := by
  cases m <;> cases c <;> simp_all [cleanShape, CleanThread.held, Main.exited]

set_option maxHeartbeats 1600000 in
theorem collectInv_trans {cfg : Config} {s s' : State} (hc : cfg.CleanProxies = true)
    (hinv : Inv cfg s) (hi : collectInv s) (h : Trans cfg s s') : collectInv s' := by
  obtain ⟨h1, h2, h3, h4, h5, h6, h7⟩ := hi
  -- a worker moves between two places that are not blocked on `CleanChannel`
  have fwd_same : ∀ (ps : List PostThread) (w : Nat) (x y : PostThread), ps[w]? = some y →
      forwardingURLs [x] = [] → forwardingURLs [y] = [] →
      List.Perm (forwardingURLs ps) (forwardingURLs (ps.set w x)) := by
    intro ps w x y hw hx hy
    simpa [hx, hy] using forwardingURLs_set ps w x y hw
  cases h with
  | startCleanOn _ =>
    have hcl : (‹Option CleanThread›) = none := by simpa [Inv, cleanShape] using hinv.1
    have h70 := h7 hcl
    refine ⟨?_, ?_, ?_, ?_, ?_, ?_, ?_⟩
    · simpa [okURLs, cleanURLs] using h1
    · intro c l hcs hheld
      simp only [Option.some.injEq] at hcs
      subst hcs
      simp only [CleanThread.held, Option.some.injEq] at hheld
      subst hheld
      have e0 : cleanURLs (‹List Event› ++ [.logCreateClean, .spawnClean]) = [] := by
        simpa [cleanURLs] using h70
      simp only at e0 ⊢
      rw [e0]
      rfl
    · simpa [savedLists, cleanURLs] using h3
    · simpa [savedLists] using h4
    · intro c hcs hm
      simp only [Option.some.injEq] at hcs
      subst hcs
      simp [CleanThread.marshalled] at hm
    · simpa [okURLs, sentURLs] using h6
    · simp
  | startCleanOff hc' => simp [hc] at hc'
  | postOkOff w hm hw hc' => simp [hc] at hc'
  | quitCleanOff hc' => simp [hc] at hc'
  | spawn hlt =>
    refine ⟨?_, ?_, ?_, ?_, ?_, ?_, ?_⟩
    · simpa [okURLs, cleanURLs, forwardingURLs_append_select] using h1
    · simpa [cleanURLs] using h2
    · simpa [savedLists, cleanURLs] using h3
    · simpa [savedLists] using h4
    · simpa [savedLists] using h5
    · simpa [okURLs, sentURLs, PostThread.isPosting] using h6
    · simpa [cleanURLs] using h7
  | dispatch w hw =>
    have hp := countP_set_get PostThread.isPosting _ w (.posting ‹URL›) _ hw
    have hf := fwd_same _ w (.posting ‹URL›) _ hw rfl rfl
    simp only [PostThread.isPosting] at hp
    refine ⟨?_, ?_, ?_, ?_, ?_, ?_, ?_⟩
    · have := h1.trans (List.Perm.append_left _ hf)
      simpa [okURLs, cleanURLs] using this
    · simpa [cleanURLs] using h2
    · simpa [savedLists, cleanURLs] using h3
    · intro hne
      have := h4 (by simpa [savedLists] using hne)
      simp at this
    · simpa [savedLists] using h5
    · simp [okURLs, sentURLs] at h6 ⊢
      simp at hp
      omega
    · simpa [cleanURLs] using h7
  | postOkOn w hm hw hc2 =>
    rename_i m ps c tr u
    have hp := countP_set_get PostThread.isPosting _ w (.forwarding u) _ hw
    have hf := forwardingURLs_set ps w (.forwarding u) _ hw
    simp only [PostThread.isPosting] at hp
    simp only [forwardingURLs, List.singleton_append, List.nil_append] at hf
    refine ⟨?_, ?_, ?_, ?_, ?_, ?_, ?_⟩
    · have e1 : List.Perm (okURLs tr ++ [u]) (u :: okURLs tr) := List.perm_append_comm
      have e2 : List.Perm (u :: (cleanURLs tr ++ forwardingURLs ps))
          (cleanURLs tr ++ u :: forwardingURLs ps) := List.perm_middle.symm
      have e3 := List.Perm.append_left (cleanURLs tr) hf
      have := e1.trans (((List.Perm.cons u h1).trans e2).trans e3)
      simpa [okURLs, cleanURLs] using this
    · simpa [cleanURLs] using h2
    · simpa [savedLists, cleanURLs] using h3
    · simpa [savedLists] using h4
    · simpa [savedLists] using h5
    · simp [okURLs, sentURLs] at h6 ⊢
      simp at hp
      omega
    · simpa [cleanURLs] using h7
  | postFail w hm hw =>
    rename_i m ps c tr u
    have hp := countP_set_get PostThread.isPosting _ w .select _ hw
    have hf := fwd_same _ w .select _ hw rfl rfl
    simp only [PostThread.isPosting] at hp
    refine ⟨?_, ?_, ?_, ?_, ?_, ?_, ?_⟩
    · have := h1.trans (List.Perm.append_left _ hf)
      simpa [okURLs, cleanURLs] using this
    · simpa [cleanURLs] using h2
    · simpa [savedLists, cleanURLs] using h3
    · simpa [savedLists] using h4
    · simpa [savedLists] using h5
    · simp [okURLs, sentURLs] at h6 ⊢
      simp at hp
      omega
    · simpa [cleanURLs] using h7
  | forward w hm hw =>
    rename_i m ps l tr u
    have hp := countP_set_get PostThread.isPosting _ w .select _ hw
    have hf := forwardingURLs_set ps w .select _ hw
    simp only [PostThread.isPosting] at hp
    simp only [forwardingURLs, List.singleton_append, List.nil_append] at hf
    have hl := h2 _ l rfl rfl
    refine ⟨?_, ?_, ?_, ?_, ?_, ?_, ?_⟩
    · have e3 := List.Perm.append_left (cleanURLs tr) hf
      have := h1.trans e3
      simpa [okURLs, cleanURLs] using this
    · intro c l' hcs hheld
      simp only [Option.some.injEq] at hcs
      subst hcs
      simp only [CleanThread.held, Option.some.injEq] at hheld
      subst hheld
      simp [cleanURLs] at hl ⊢
      simp [hl]
    · intro l' hl'
      have hsv : savedLists tr = [] := by
        by_contra hne
        have hmw := h4 hne
        have hsh := hinv.1
        rcases hmw with hmw | hmw <;> simp only at hmw <;> subst hmw <;>
          simp [cleanShape] at hsh
      have e0 : savedLists (tr ++ [.sendClean w u]) = [] := by
        simpa [savedLists] using hsv
      simp only at hl'
      rw [e0] at hl'
      simp at hl'
    · simpa [savedLists] using h4
    · intro c hcs hmm
      simp only [Option.some.injEq] at hcs
      subst hcs
      simp [CleanThread.marshalled] at hmm
    · simp [okURLs, sentURLs] at h6 ⊢
      simp at hp
      omega
    · simp
  | kill w hw =>
    have hp := countP_set_get PostThread.isPosting _ w .returned _ hw
    have hf := fwd_same _ w .returned _ hw rfl rfl
    simp only [PostThread.isPosting] at hp
    refine ⟨?_, ?_, ?_, ?_, ?_, ?_, ?_⟩
    · have := h1.trans (List.Perm.append_left _ hf)
      simpa [okURLs, cleanURLs] using this
    · simpa [cleanURLs] using h2
    · simpa [savedLists, cleanURLs] using h3
    · intro hne
      have := h4 (by simpa [savedLists] using hne)
      simp at this
    · simpa [savedLists] using h5
    · simp [okURLs, sentURLs] at h6 ⊢
      simp at hp
      omega
    · simpa [cleanURLs] using h7
  | quitClean =>
    rename_i ps l tr
    have hl := h2 _ l rfl rfl
    refine ⟨?_, ?_, ?_, ?_, ?_, ?_, ?_⟩
    · simpa [okURLs, cleanURLs] using h1
    · intro c l' hcs hheld
      simp only [Option.some.injEq] at hcs
      subst hcs
      simp only [CleanThread.held, Option.some.injEq] at hheld
      subst hheld
      simpa [cleanURLs] using hl
    · simpa [savedLists, cleanURLs] using h3
    · simp
    · intro c hcs hmm
      simp only [Option.some.injEq] at hcs
      subst hcs
      simp [CleanThread.marshalled] at hmm
    · simpa [okURLs, sentURLs] using h6
    · simp
  | marshalOk hm | marshalFail hm | writeOk hm | writeFail hm =>
    rename_i m ps l tr
    have hl := h2 _ l rfl rfl
    have hmw : m = .waitCompleted :=
      waiting_of_saving hinv.1 (Or.inr ⟨l, by simp⟩) hm
    subst hmw
    refine ⟨?_, ?_, ?_, ?_, ?_, ?_, ?_⟩
    · simpa [okURLs, cleanURLs] using h1
    · intro c l' hcs hheld
      simp only [Option.some.injEq] at hcs
      subst hcs
      simp only [CleanThread.held, Option.some.injEq] at hheld
      first
        | (subst hheld; simpa [cleanURLs] using hl)
        | simp at hheld
    · intro l' hl'
      simp only [savedLists, List.filterMap_append, List.mem_append] at hl'
      rcases hl' with hl' | hl'
      · simpa [cleanURLs] using h3 l' hl'
      · simp at hl'
        subst hl'
        simpa [cleanURLs] using hl
    · simp
    · intro c hcs hmm
      simp [savedLists]
    · simpa [okURLs, sentURLs] using h6
    · simp
  | completed =>
    refine ⟨?_, ?_, ?_, ?_, ?_, ?_, ?_⟩
    · simpa [okURLs, cleanURLs] using h1
    · intro c l' hcs hheld
      simp only [Option.some.injEq] at hcs
      subst hcs
      simp [CleanThread.held] at hheld
    · simpa [savedLists, cleanURLs] using h3
    · simp
    · intro c hcs hmm
      have := h5 .completing rfl rfl
      simpa [savedLists] using this
    · simpa [okURLs, sentURLs] using h6
    · simp
  | _ =>
    refine ⟨?_, ?_, ?_, ?_, ?_, ?_, ?_⟩
    · simpa [okURLs, cleanURLs] using h1
    · simpa [cleanURLs] using h2
    · simpa [savedLists, cleanURLs] using h3
    · intro hne
      have := h4 (by simpa [savedLists] using hne)
      simp at this
    · simpa [savedLists] using h5
    · simpa [okURLs, sentURLs] using h6
    · simpa [cleanURLs] using h7

theorem collectInv_of_reach {cfg : Config} {s : State} (hc : cfg.CleanProxies = true)
    (hr : Reach cfg s) : collectInv s :=
  reach_induction (P := collectInv)
    (by simp [collectInv, init, okURLs, cleanURLs, savedLists, sentURLs, forwardingURLs])
    (fun _ _ hr' hi ht => collectInv_trans hc (inv_of_reach hr') hi ht) s hr

/-- C4: with collection enabled, in every reachable state every list
`CleanThread` has handed to `json.Marshal` or `ioutil.WriteFile` is, up to
order, the `Host`s of exactly the endpoints whose calls succeeded, so it has
exactly W entries; W is at most the number of items dispatched; once `main`
has sent the collector's quit signal everything sent on `CleanChannel` is,
up to order, all the successes; when `main` has returned the list has been
serialised; and with at least one worker and an in-range start offset every
schedule brings `main` to return. -/
theorem collector_saves_every_success (cfg : Config) (hc : cfg.CleanProxies = true)
    (s : State) (hr : Reach cfg s) :
    (∀ l ∈ savedLists s.trace,
      List.Perm l ((okURLs s.trace).map URL.Host) ∧ l.length = (okURLs s.trace).length) ∧
    (okURLs s.trace).length ≤ (sentURLs s.trace).length ∧
    (s.main = .waitCompleted ∨ s.main = .done →
      List.Perm (cleanURLs s.trace) (okURLs s.trace)) ∧
    (s.main = .done → savedLists s.trace ≠ []) ∧
    (1 ≤ cfg.Threads → 0 ≤ cfg.Entrance ∧ cfg.Entrance ≤ (cfg.ProxyList.length : Int) →
      Inev cfg (fun s' => s'.main = .done ∧ savedLists s'.trace ≠ []) s) := by
  have saved : ∀ s', Reach cfg s' → s'.main = .done → savedLists s'.trace ≠ [] := by
    intro s' hr' hd
    obtain ⟨_, _, _, _, h5, _, _⟩ := collectInv_of_reach hc hr'
    obtain ⟨hcs, _, _⟩ := inv_of_reach hr'
    rw [hd] at hcs
    simp only [cleanShape, hc, if_true] at hcs
    exact h5 _ hcs rfl
  obtain ⟨h1, h2, h3, h4, h5, h6, h7⟩ := collectInv_of_reach hc hr
  obtain ⟨hcs, hps, _⟩ := inv_of_reach hr
  have late : s.main = .waitCompleted ∨ s.main = .done →
      List.Perm (cleanURLs s.trace) (okURLs s.trace) := by
    intro hm
    have hret : s.posts.countP PostThread.isReturned = s.posts.length := by
      rcases hm with hm | hm <;> rw [hm] at hps <;> exact hps.2
    rw [forwardingURLs_of_returned _ hret, List.append_nil] at h1
    exact h1.symm
  refine ⟨?_, by omega, late, saved s hr, ?_⟩
  · intro l hl
    have hm := h4 (List.ne_nil_of_mem hl)
    have hperm : List.Perm l ((okURLs s.trace).map URL.Host) := by
      rw [h3 l hl]
      exact (late hm).map _
    exact ⟨hperm, by simpa using hperm.length_eq⟩
  · intro hT he
    refine inev_mono ?_ (inev_done hr (live_of_threads hT he hr))
    intro s' ⟨hr', hd⟩
    exact ⟨hd, saved s' hr' hd⟩

theorem collector_saves_every_success_witness :
    configFive.CleanProxies = true ∧
    Reach configFive (runFrom configFive scheduleFive) ∧
    (runFrom configFive scheduleFive).main = .done ∧
    configFive.Threads = 3 ∧
    (sentURLs (runFrom configFive scheduleFive).trace).length = 5 ∧
    (okURLs (runFrom configFive scheduleFive).trace).length = 5 ∧
    savedLists (runFrom configFive scheduleFive).trace ≠ [] ∧
    (∀ l ∈ savedLists (runFrom configFive scheduleFive).trace,
      List.Perm l ((okURLs (runFrom configFive scheduleFive).trace).map URL.Host) ∧
      l.length = (okURLs (runFrom configFive scheduleFive).trace).length) :=
  ⟨by decide, reach_runFrom (by decide), by decide, by decide, by decide, by decide,
    by decide,
    (collector_saves_every_success configFive (by decide) _
      (reach_runFrom (by decide))).1⟩

theorem completeInv_trans {cfg : Config} {s s' : State} (hinv : Inv cfg s)
    (hi : completeInv s) (h : Trans cfg s s') : completeInv s' := by
  obtain ⟨h1, h2, h3, h4, h5, h6⟩ := hi
  cases h with
  | startCleanOn hc =>
    have hcl : (‹Option CleanThread›) = none := by simpa [Inv, cleanShape] using hinv.1
    have h0 := h3 hcl
    subst hcl
    refine ⟨?_, ?_, ?_, ?_, ?_, ?_⟩
    · simpa [List.count_append] using h1
    · simpa [List.countP_append, Event.isWrite] using h2
    · simp
    · intro c hcs hsv
      simpa [List.countP_append, Event.isWrite] using h0
    · simpa [List.count_append, List.countP_append, Event.isMarshalFail] using h5
    · simpa [List.count_append, List.countP_append, Event.isWriteFail] using h6
  | forward w hm hw =>
    refine ⟨?_, ?_, ?_, ?_, ?_, ?_⟩
    · simpa [List.count_append] using h1
    · simpa [List.countP_append, Event.isWrite] using h2
    · simp
    · intro c hcs hsv
      have := h4 _ rfl rfl
      simpa [List.countP_append, Event.isWrite] using this
    · simpa [List.count_append, List.countP_append, Event.isMarshalFail] using h5
    · simpa [List.count_append, List.countP_append, Event.isWriteFail] using h6
  | quitClean =>
    refine ⟨?_, ?_, ?_, ?_, ?_, ?_⟩
    · simpa [List.count_append] using h1
    · simpa [List.countP_append, Event.isWrite] using h2
    · simp
    · intro c hcs hsv
      have := h4 _ rfl rfl
      simpa [List.countP_append, Event.isWrite] using this
    · simpa [List.count_append, List.countP_append, Event.isMarshalFail] using h5
    · simpa [List.count_append, List.countP_append, Event.isWriteFail] using h6
  | marshalOk hm | marshalFail hm =>
    refine ⟨?_, ?_, ?_, ?_, ?_, ?_⟩
    · simpa [List.count_append] using h1
    · simpa [List.countP_append, Event.isWrite] using h2
    · simp
    · intro c hcs hsv
      have := h4 _ rfl rfl
      simpa [List.countP_append, Event.isWrite] using this
    · simp [List.count_append, List.countP_append, Event.isMarshalFail] at h5 ⊢
      omega
    · simpa [List.count_append, List.countP_append, Event.isWriteFail] using h6
  | writeOk hm | writeFail hm =>
    have h0 := h4 _ rfl rfl
    simp only at h0
    refine ⟨?_, ?_, ?_, ?_, ?_, ?_⟩
    · simpa [List.count_append] using h1
    · simp [List.countP_append, Event.isWrite, h0]
    · simp
    · intro c hcs hsv
      simp only [Option.some.injEq] at hcs
      subst hcs
      simp [CleanThread.saved] at hsv
    · simpa [List.count_append, List.countP_append, Event.isMarshalFail] using h5
    · simp [List.count_append, List.countP_append, Event.isWriteFail] at h6 ⊢
      omega
  | completed =>
    refine ⟨?_, ?_, ?_, ?_, ?_, ?_⟩
    · simpa [List.count_append] using h1
    · simpa [List.countP_append, Event.isWrite] using h2
    · simp
    · intro c hcs hsv
      simp only [Option.some.injEq] at hcs
      subst hcs
      simp [CleanThread.saved] at hsv
    · simpa [List.count_append, List.countP_append, Event.isMarshalFail] using h5
    · simpa [List.count_append, List.countP_append, Event.isWriteFail] using h6
  | _ =>
    refine ⟨?_, ?_, ?_, ?_, ?_, ?_⟩
    · simpa [List.count_append] using h1
    · simpa [List.countP_append, Event.isWrite] using h2
    · simpa [List.countP_append, Event.isWrite] using h3
    · simpa [List.countP_append, Event.isWrite] using h4
    · simpa [List.count_append, List.countP_append, Event.isMarshalFail] using h5
    · simpa [List.count_append, List.countP_append, Event.isWriteFail] using h6

theorem completeInv_of_reach {cfg : Config} {s : State} (hr : Reach cfg s) :
    completeInv s :=
  reach_induction (P := completeInv) (by simp [completeInv, init])
    (fun _ _ hr' hi ht => completeInv_trans (inv_of_reach hr') hi ht) s hr

/-- C8: in every reachable state `CleanThread` has sent at most one token on
`CompletedChannel`, has sent one exactly when it has returned, has attempted
the file write at most once, and has logged every marshalling and every write
failure.  From the state in which it has just taken its quit signal, each of
the three outcomes (marshalling fails; marshalling succeeds and the write
fails; both succeed) runs to the state where the token was sent once,
`CleanThread` has returned and `main` has the token, with the failure logged
and the write attempted at most once; and every schedule ends that way. -/
theorem cleanThread_signals_completion_once (cfg : Config) (s : State) (hr : Reach cfg s) :
    s.trace.count .sendCompleted ≤ 1 ∧
    (s.trace.count .sendCompleted = 1 ↔ s.clean = some .returned) ∧
    s.trace.countP Event.isWrite ≤ 1 ∧
    s.trace.count .logMarshalError = s.trace.countP Event.isMarshalFail ∧
    s.trace.count .logWriteError = s.trace.countP Event.isWriteFail ∧
    (∀ l, s.clean = some (.marshal l) →
      run cfg s [.marshal false, .completed] =
        some ⟨.done, s.posts, some .returned,
          s.trace ++ [.marshal l false, .logMarshalError, .sendCompleted, .recvCompleted]⟩ ∧
      run cfg s [.marshal true, .write false, .completed] =
        some ⟨.done, s.posts, some .returned,
          s.trace ++ [.marshal l true, .writeFile l false, .logWriteError, .sendCompleted,
            .recvCompleted]⟩ ∧
      run cfg s [.marshal true, .write true, .completed] =
        some ⟨.done, s.posts, some .returned,
          s.trace ++ [.marshal l true, .writeFile l true, .sendCompleted, .recvCompleted]⟩ ∧
      Inev cfg (fun s' => s'.clean = some .returned ∧
        s'.trace.count .sendCompleted = 1 ∧ s'.trace.countP Event.isWrite ≤ 1) s) := by
  obtain ⟨h1, h2, _, _, h5, h6⟩ := completeInv_of_reach hr
  refine ⟨?_, ?_, h2, h5, h6, ?_⟩
  · rw [h1]; split <;> omega
  · rw [h1]; by_cases hcl : s.clean = some .returned <;> simp [hcl]
  · intro l hl
    obtain ⟨hcs, _, _⟩ := inv_of_reach hr
    obtain ⟨m, ps, c, tr⟩ := s
    simp only at hl
    subst hl
    have hm : m = .waitCompleted := by
      cases m <;> simp_all [cleanShape]
    subst hm
    refine ⟨?_, ?_, ?_, ?_⟩
    · simp [run, step, stepMarshal, stepCompleted, Main.exited]
    · simp [run, step, stepMarshal, stepWrite, stepCompleted, Main.exited]
    · simp [run, step, stepMarshal, stepWrite, stepCompleted, Main.exited]
    · refine inev_mono ?_ (inev_done hr (Or.inl rfl))
      intro s' ⟨hr', hd⟩
      obtain ⟨hcs', _, _⟩ := inv_of_reach hr'
      obtain ⟨g1, g2, _, _, _, _⟩ := completeInv_of_reach hr'
      rw [hd] at hcs'
      simp only [cleanShape] at hcs hcs'
      simp only [hcs.1, if_true] at hcs'
      refine ⟨hcs', ?_, g2⟩
      rw [g1, hcs']
      simp

theorem cleanThread_signals_completion_once_witness :
    Reach configTwo (runFrom configTwo scheduleQuit) ∧
    (runFrom configTwo scheduleQuit).clean = some (.marshal ["a:1", "b:2"]) ∧
    Inev configTwo (fun s' => s'.clean = some .returned ∧
      s'.trace.count .sendCompleted = 1 ∧ s'.trace.countP Event.isWrite ≤ 1)
      (runFrom configTwo scheduleQuit) :=
  ⟨reach_runFrom (by decide), by decide,
    ((cleanThread_signals_completion_once configTwo _
      (reach_runFrom (by decide))).2.2.2.2.2 ["a:1", "b:2"] (by decide)).2.2.2⟩

/-! ## Claims about one worker -/

theorem inFlight_append_select (ps : List PostThread) (w : Nat) :
    inFlight (ps ++ [PostThread.select])[w]? = inFlight ps[w]? ∧
    toForward (ps ++ [PostThread.select])[w]? = toForward ps[w]? ∧
    ((ps ++ [PostThread.select])[w]? = none → ps[w]? = none) := by
  rw [List.getElem?_append]
  split
  · exact ⟨rfl, rfl, fun h => h⟩
  · have hn : ps[w]? = none := List.getElem?_eq_none (by omega)
    rw [hn]
    cases hk : w - ps.length with
    | zero => simp [inFlight, toForward]
    | succ k => simp [inFlight, toForward]


set_option maxHeartbeats 1600000 in
theorem workerInv_trans {cfg : Config} {s s' : State} (hi : workerInv cfg s)
    (h : Trans cfg s s') : workerInv cfg s' := by
  cases h with
  | spawn hlt =>
    intro w
    obtain ⟨g1, g2, g3, g4⟩ := hi w
    obtain ⟨e1, e2, e3⟩ := inFlight_append_select ‹List PostThread› w
    simp only [e1, e2]
    refine ⟨?_, ?_, ?_, ?_⟩
    · simpa [recvBy, outcomesBy] using g1
    · simpa [cleanBy, outcomesBy] using g2
    · simpa [List.count_append, outcomesBy] using g3
    · intro hn
      simpa [recvBy] using g4 (e3 hn)
  | dispatch w' hw =>
    intro w
    obtain ⟨g1, g2, g3, g4⟩ := hi w
    simp only [get_set_of_get hw]
    by_cases hww : w' = w
    · subst hww
      simp only [hw, inFlight, toForward] at g1 g2
      refine ⟨?_, ?_, ?_, ?_⟩
      · simpa [recvBy, outcomesBy, inFlight] using g1
      · simpa [cleanBy, outcomesBy, toForward] using g2
      · simpa [List.count_append, outcomesBy] using g3
      · simp
    · refine ⟨?_, ?_, ?_, ?_⟩
      · simpa [recvBy, outcomesBy, hww] using g1
      · simpa [cleanBy, outcomesBy, hww] using g2
      · simpa [List.count_append, outcomesBy, hww] using g3
      · simpa [recvBy, hww] using g4
  | postOkOn w' hm hw hc =>
    intro w
    obtain ⟨g1, g2, g3, g4⟩ := hi w
    simp only [get_set_of_get hw]
    by_cases hww : w' = w
    · subst hww
      simp only [hw, inFlight, toForward] at g1 g2
      refine ⟨?_, ?_, ?_, ?_⟩
      · simpa [recvBy, outcomesBy, inFlight] using g1
      · simpa [cleanBy, outcomesBy, toForward, hc] using g2
      · simpa [List.count_append, outcomesBy] using g3
      · simp
    · have hne : ¬ w = w' := fun h => hww h.symm
      refine ⟨?_, ?_, ?_, ?_⟩
      · simpa [recvBy, outcomesBy, hww] using g1
      · simpa [cleanBy, outcomesBy, hww] using g2
      · simpa [List.count_append, outcomesBy, hww, hne] using g3
      · simpa [recvBy, hww] using g4
  | postOkOff w' hm hw hc =>
    intro w
    obtain ⟨g1, g2, g3, g4⟩ := hi w
    simp only [get_set_of_get hw]
    by_cases hww : w' = w
    · subst hww
      simp only [hw, inFlight, toForward] at g1 g2
      refine ⟨?_, ?_, ?_, ?_⟩
      · simpa [recvBy, outcomesBy, inFlight] using g1
      · simpa [cleanBy, outcomesBy, toForward, hc] using g2
      · simpa [List.count_append, outcomesBy] using g3
      · simp
    · have hne : ¬ w = w' := fun h => hww h.symm
      refine ⟨?_, ?_, ?_, ?_⟩
      · simpa [recvBy, outcomesBy, hww] using g1
      · simpa [cleanBy, outcomesBy, hww] using g2
      · simpa [List.count_append, outcomesBy, hww, hne] using g3
      · simpa [recvBy, hww] using g4
  | postFail w' hm hw =>
    intro w
    obtain ⟨g1, g2, g3, g4⟩ := hi w
    simp only [get_set_of_get hw]
    by_cases hww : w' = w
    · subst hww
      simp only [hw, inFlight, toForward] at g1 g2
      refine ⟨?_, ?_, ?_, ?_⟩
      · simpa [recvBy, outcomesBy, inFlight] using g1
      · simpa [cleanBy, outcomesBy, toForward] using g2
      · simpa [List.count_append, outcomesBy] using g3
      · simp
    · have hne : ¬ w = w' := fun h => hww h.symm
      refine ⟨?_, ?_, ?_, ?_⟩
      · simpa [recvBy, outcomesBy, hww] using g1
      · simpa [cleanBy, outcomesBy, hww] using g2
      · simpa [List.count_append, outcomesBy, hww, hne] using g3
      · simpa [recvBy, hww] using g4
  | forward w' hm hw =>
    intro w
    obtain ⟨g1, g2, g3, g4⟩ := hi w
    simp only [get_set_of_get hw]
    by_cases hww : w' = w
    · subst hww
      simp only [hw, inFlight, toForward] at g1 g2
      refine ⟨?_, ?_, ?_, ?_⟩
      · simpa [recvBy, outcomesBy, inFlight] using g1
      · simpa [cleanBy, outcomesBy, toForward] using g2
      · simpa [List.count_append, outcomesBy] using g3
      · simp
    · have hne : ¬ w = w' := fun h => hww h.symm
      refine ⟨?_, ?_, ?_, ?_⟩
      · simpa [recvBy, outcomesBy, hww] using g1
      · simpa [cleanBy, outcomesBy, hww] using g2
      · simpa [List.count_append, outcomesBy, hww, hne] using g3
      · simpa [recvBy, hww] using g4
  | kill w' hw =>
    intro w
    obtain ⟨g1, g2, g3, g4⟩ := hi w
    simp only [get_set_of_get hw]
    by_cases hww : w' = w
    · subst hww
      simp only [hw, inFlight, toForward] at g1 g2
      refine ⟨?_, ?_, ?_, ?_⟩
      · simpa [recvBy, outcomesBy, inFlight] using g1
      · simpa [cleanBy, outcomesBy, toForward] using g2
      · simpa [List.count_append, outcomesBy] using g3
      · simp
    · have hne : ¬ w = w' := fun h => hww h.symm
      refine ⟨?_, ?_, ?_, ?_⟩
      · simpa [recvBy, outcomesBy, hww] using g1
      · simpa [cleanBy, outcomesBy, hww] using g2
      · simpa [List.count_append, outcomesBy, hww, hne] using g3
      · simpa [recvBy, hww] using g4
  | _ =>
    intro w
    obtain ⟨g1, g2, g3, g4⟩ := hi w
    refine ⟨?_, ?_, ?_, ?_⟩
    · simpa [recvBy, outcomesBy] using g1
    · simpa [cleanBy, outcomesBy] using g2
    · simpa [List.count_append, outcomesBy] using g3
    · simpa [recvBy] using g4

theorem workerInv_of_reach {cfg : Config} {s : State} (hr : Reach cfg s) :
    workerInv cfg s :=
  reach_induction (P := workerInv cfg)
    (by intro w; simp [init, recvBy, outcomesBy, cleanBy, inFlight, toForward])
    (fun _ _ _ hi ht => workerInv_trans hi ht) s hr


theorem returned_only_by_quit {cfg : Config} {s s' : State} {w : Nat} {y : PostThread}
    (h : Trans cfg s s') (hw : s.posts[w]? = some y) (hy : y ≠ .returned)
    (hret : s'.posts[w]? = some .returned) :
    step cfg s (.kill w) = some s' ∧ s'.trace = s.trace ++ [.sendQuit, .recvQuit w] := by
  have keep : ∀ (ps : List PostThread) (w' : Nat) (x z : PostThread), ps[w']? = some z →
      ps[w]? = some y → x ≠ .returned → (ps.set w' x)[w]? ≠ some .returned := by
    intro ps w' x z hz hps hx
    rw [get_set_of_get hz]
    split
    · simpa using hx
    · rw [hps]; simpa using hy
  cases h with
  | spawn hlt =>
    exfalso
    simp only at hw hret
    rw [get_append_select, hw] at hret
    simp at hret
    exact hy hret
  | dispatch w' hw' => exact absurd hret (keep _ w' _ _ hw' hw (by simp))
  | postOkOn w' hm hw' hc => exact absurd hret (keep _ w' _ _ hw' hw (by simp))
  | postOkOff w' hm hw' hc => exact absurd hret (keep _ w' _ _ hw' hw (by simp))
  | postFail w' hm hw' => exact absurd hret (keep _ w' _ _ hw' hw (by simp))
  | forward w' hm hw' => exact absurd hret (keep _ w' _ _ hw' hw (by simp))
  | kill w' hw' =>
    simp only at hw hret
    rw [get_set_of_get hw'] at hret
    by_cases hww : w' = w
    · subst hww
      simp [step, stepKill, hw']
    · simp only [hww, if_false] at hret
      rw [hw] at hret
      simp at hret
      exact absurd hret hy
  | _ =>
    exfalso
    simp only at hw hret
    rw [hw] at hret
    simp at hret
    exact hy hret

/-- C9: for every worker `w` of a reachable state: each endpoint it received
has had its call return or is in flight; what it sent on `CleanChannel`, with
what it is blocked sending, is its successes, each once and in order, when
`CleanProxies` is true, and nothing when it is false; it logged each failure;
it has returned exactly when it took a quit token, and the only step that
makes it return is the rendezvous on `QuitChannel`.  With a call in flight,
a failure logs and leaves the worker in its `select`, and a success leaves it
blocked sending that endpoint on `CleanChannel` when `CleanProxies` is true
and in its `select` otherwise; blocked on `CleanChannel`, `CleanThread` is in
its `select` and the send completes, once, leaving the worker in its
`select`. -/
theorem postThread_handles_each_item (cfg : Config) (s : State) (hr : Reach cfg s)
    (w : Nat) (y : PostThread) (hw : s.posts[w]? = some y) :
    recvBy w s.trace = (outcomesBy w s.trace).map Prod.fst ++ inFlight (some y) ∧
    cleanBy w s.trace ++ toForward (some y) =
      (if cfg.CleanProxies = true then
        ((outcomesBy w s.trace).filter Prod.snd).map Prod.fst else []) ∧
    s.trace.count (.logPostError w) =
      ((outcomesBy w s.trace).filter (fun o => !o.2)).length ∧
    (y = .returned ↔ s.trace.count (.recvQuit w) = 1) ∧
    (∀ a s', step cfg s a = some s' → y ≠ .returned → s'.posts[w]? = some .returned →
      step cfg s (.kill w) = some s' ∧ s'.trace = s.trace ++ [.sendQuit, .recvQuit w]) ∧
    (∀ u, y = .posting u →
      step cfg s (.postDone w false) =
        some ⟨s.main, s.posts.set w .select, s.clean,
          s.trace ++ [.postErr w u, .logPostError w]⟩ ∧
      step cfg s (.postDone w true) =
        some ⟨s.main,
          s.posts.set w (if cfg.CleanProxies = true then .forwarding u else .select),
          s.clean, s.trace ++ [.postOk w u]⟩) ∧
    (∀ u, y = .forwarding u → cfg.CleanProxies = true ∧
      ∃ l, s.clean = some (.select l) ∧
        step cfg s (.forward w) =
          some ⟨s.main, s.posts.set w .select, some (.select (l ++ [u.Host])),
            s.trace ++ [.sendClean w u]⟩) := by
  obtain ⟨g1, g2, g3, _⟩ := workerInv_of_reach hr w
  obtain ⟨_, _, q3⟩ := quitInv_of_reach hr
  obtain ⟨hcs, hps, hfw⟩ := inv_of_reach hr
  have hidle := idleInv_of_reach hr
  rw [hw] at g1 g2
  obtain ⟨hlt, hget⟩ := List.getElem?_eq_some.mp hw
  have hmem : y ∈ s.posts := hget ▸ List.getElem_mem hlt
  -- a worker that is neither waiting nor returned: `main` has not exited
  have busy : y ≠ .select → y ≠ .returned → s.main.exited = false ∧
      s.main.beforeDispatch = false ∧ s.main.pastKill = false := by
    intro h1 h2
    have hb : s.main.beforeDispatch = false := by
      cases hb : s.main.beforeDispatch with
      | false => rfl
      | true => exact absurd (hidle hb y hmem) h1
    have hk : s.main.pastKill = false := by
      cases hk : s.main.pastKill with
      | false => rfl
      | true =>
        exfalso
        have hall : s.posts.countP PostThread.isReturned = s.posts.length := by
          cases hm : s.main <;> simp only [hm, Main.pastKill] at hk hps <;>
            first | exact hps.2 | simp at hk
        have := (List.countP_eq_length.mp hall) y hmem
        cases y <;> simp_all [PostThread.isReturned]
    refine ⟨?_, hb, hk⟩
    cases hm : s.main <;> simp_all [Main.exited, Main.beforeDispatch, Main.pastKill]
  refine ⟨g1, g2, g3, ?_, ?_, ?_, ?_⟩
  · rw [q3 w, hw]
    cases y <;> simp
  · intro a s' hs hy hret
    exact returned_only_by_quit (trans_of_step hs) hw hy hret
  · intro u hu
    subst hu
    obtain ⟨hex, _, _⟩ := busy (by simp) (by simp)
    by_cases hc : cfg.CleanProxies = true <;> simp [step, stepPostDone, hex, hw, hc]
  · intro u hu
    subst hu
    obtain ⟨hex, hb, hk⟩ := busy (by simp) (by simp)
    have hc : cfg.CleanProxies = true := by
      by_contra hc
      have h0 := hfw (by simpa using hc)
      have := countP_pos_of_get PostThread.isForwarding s.posts w _ hw rfl
      omega
    refine ⟨hc, ?_⟩
    have hsel : ∃ l, s.clean = some (.select l) := by
      cases hm : s.main <;>
        simp_all [cleanShape, Main.exited, Main.beforeDispatch, Main.pastKill]
    obtain ⟨l, hl⟩ := hsel
    exact ⟨l, hl, by simp [step, stepForward, hex, hw, hl]⟩

theorem postThread_handles_each_item_witness :
    Reach configTwo (runFrom configTwo scheduleDraining) ∧
    (runFrom configTwo scheduleDraining).posts[1]? = some (.posting ⟨"b:2"⟩) ∧
    recvBy 1 (runFrom configTwo scheduleDraining).trace =
      (outcomesBy 1 (runFrom configTwo scheduleDraining).trace).map Prod.fst ++
        inFlight (some (.posting ⟨"b:2"⟩)) :=
  ⟨reach_runFrom (by decide), by decide,
    (postThread_handles_each_item configTwo _ (reach_runFrom (by decide)) 1
      (.posting ⟨"b:2"⟩) (by decide)).1⟩

end StrawpollBot
